import Mathlib

/-! # linux-serial-test: a shallow embedding of the transfer loop

The development follows `linux-serial-test.c`.  Global variables of the C
program become fields of explicit records, the results of the system calls
`read`, `write`, `poll` and `clock_gettime` are inputs of the functions that
issue them, and `exit` becomes a distinguished result.

Conventions.
* `unsigned char` values are natural numbers, reduced modulo 256 where the C
  arithmetic wraps.
* `int` flags set from the command line keep their C meaning: a flag is true
  when it is not `0`; the tests `== 0` and `== 1` of the source are kept.
* `long long` counters are integers.  They count bytes of a serial line, and
  the arithmetic on them is modelled without wrap-around at `2^63`.
-/

namespace LinuxSerialTest

/-! ## Constants -/

/-- The value of `EAGAIN` on Linux. -/
def EAGAIN : Int := 11

/-- The value of `EIO` on Linux. -/
def EIO : Int := 5

/-- The macro `DUMP_STAT_INTERVAL_SECONDS`. -/
def DUMP_STAT_INTERVAL_SECONDS : Int := 2

/-! ## Command line arguments and module variables -/

/-- The `_cl_*` command line arguments read by the transfer loop, together
with `_write_size`, which `main` derives from `_cl_tx_bytes` before the loop
and never changes afterwards. -/
structure Options where
  cl_stats : Int
  cl_stop_on_error : Int
  cl_no_rx : Int
  cl_no_tx : Int
  cl_rx_delay : Int
  cl_tx_delay : Int
  cl_tx_bytes : Int
  cl_ascii_range : Int
  cl_write_after_read : Int
  cl_rx_timeout : Int
  write_size : Int
deriving DecidableEq, Repr

/-- The assignment `_write_size = (_cl_tx_bytes == 0) ? 1024 : _cl_tx_bytes`
of `main`. -/
def main_write_size (cl_tx_bytes : Int) : Int :=
  if cl_tx_bytes == 0 then 1024 else cl_tx_bytes

/-- The values of the command line arguments when no option is given, with
`_write_size` as `main` sets it for them. -/
def default_options : Options :=
  { cl_stats := 0, cl_stop_on_error := 0, cl_no_rx := 0, cl_no_tx := 0,
    cl_rx_delay := 0, cl_tx_delay := 0, cl_tx_bytes := 0, cl_ascii_range := 0,
    cl_write_after_read := 0, cl_rx_timeout := 0, write_size := 1024 }

/-- The module variables that the read and write paths update. -/
structure Globals where
  write_count_value : Nat
  read_count_value : Nat
  write_count : Int
  read_count : Int
  error_count : Int
deriving DecidableEq, Repr

/-! ## Sequence generator -/

/-- The function `next_count_value`: `c++` on an `unsigned char`, then the
wrap to `32` when the ASCII range is selected and `c >= 127`. -/
def next_count_value (cl_ascii_range : Int) (c : Nat) : Nat :=
  let c := (c + 1) % 256
  if cl_ascii_range != 0 && decide (c >= 127) then 32 else c

/-! ## Clock and statistics -/

/-- The fields of `struct timespec`. -/
structure Timespec where
  tv_sec : Int
  tv_nsec : Int
deriving DecidableEq, Repr

/-- The conversion of a `long` to `int` at the `return` of `diff_ms`
(reduction modulo `2^32` into the signed range). -/
def to_int (x : Int) : Int :=
  (x + 2147483648) % 4294967296 - 2147483648

/-- The function `diff_ms`: the difference `t1 - t2` in milliseconds. -/
def diff_ms (t1 t2 : Timespec) : Int :=
  let sec := t1.tv_sec - t2.tv_sec
  let nsec := t1.tv_nsec - t2.tv_nsec
  let sec' := if nsec < 0 then sec - 1 else sec
  let nsec' := if nsec < 0 then nsec + 1000000000 else nsec
  to_int (sec' * 1000 + nsec'.tdiv 1000000)

/-- The time from `t2` to `t1` in nanoseconds. -/
def elapsed_ns (t1 t2 : Timespec) : Int :=
  (t1.tv_sec * 1000000000 + t1.tv_nsec) - (t2.tv_sec * 1000000000 + t2.tv_nsec)

/-- Two timestamps as `clock_gettime` gives them (nanoseconds within
`0..999999999`) that are less than `2^31` ms apart, so that their difference
in milliseconds is an `int`. -/
@[reducible] def within_int_range (t1 t2 : Timespec) : Prop :=
  0 ≤ t1.tv_nsec ∧ t1.tv_nsec < 1000000000 ∧ 0 ≤ t2.tv_nsec ∧ t2.tv_nsec < 1000000000 ∧
    -2147483648 * 1000000 ≤ elapsed_ns t1 t2 ∧ elapsed_ns t1 t2 < 2147483648 * 1000000

/-- The numbers printed by `dump_serial_port_stats`. -/
structure StatsLine where
  t : Int
  rx : Int
  rx_rate : Int
  tx : Int
  tx_rate : Int
  rx_err : Int
deriving DecidableEq, Repr

/-- The function `dump_serial_port_stats`, with `current` the answer of its
`clock_gettime` call.  The result is `none` when the two divisions by
`ms_since_beginning` divide by zero. -/
def dump_serial_port_stats (start_time current : Timespec) (g : Globals) :
    Option StatsLine :=
  let ms_since_beginning := diff_ms current start_time
  if ms_since_beginning == 0 then
    none
  else
    some
      { t := ms_since_beginning.tdiv 1000
        rx := g.read_count
        rx_rate := (g.read_count * 8 * 1000).tdiv ms_since_beginning
        tx := g.write_count
        tx_rate := (g.write_count * 8 * 1000).tdiv ms_since_beginning
        rx_err := g.error_count }

/-- How the process can stop inside the loop: a call of `exit`, or the
arithmetic fault of a division by zero. -/
inductive Stop where
  | exit (status : Int)
  | fault
deriving DecidableEq, Repr

/-! ## Read path -/

/-- What the `read` call answers: the bytes stored in `rb`, whose number is
the return value, or `-1` with an `errno`. -/
inductive ReadResult where
  | data (rb : List Nat)
  | error (errno : Int)
deriving DecidableEq, Repr

/-- The result of `process_read_data`: it returns `c` with the module
variables updated, or the process stops. -/
inductive ReadOutcome where
  | returned (g : Globals) (c : Int)
  | stopped (t : Stop)
deriving DecidableEq, Repr

/-- The loop `for (i = 0; i < c; i++)` of `process_read_data`, from index `i`
on, over the bytes of `rb` not yet looked at.  `_read_count` is not updated
inside the loop. -/
def verify_loop (o : Options) (start_time stats_clock : Timespec) :
    Nat → List Nat → Globals → Except Stop Globals
  | _, [], g => .ok g
  | i, b :: rest, g =>
    if g.read_count == 0 && i == 0 then
      let g1 := { g with read_count_value := b }
      verify_loop o start_time stats_clock (i + 1) rest
        { g1 with read_count_value :=
            next_count_value o.cl_ascii_range g1.read_count_value }
    else if b != g.read_count_value then
      let g1 := { g with error_count := g.error_count + 1 }
      if o.cl_stop_on_error != 0 then
        match dump_serial_port_stats start_time stats_clock g1 with
        | none => .error Stop.fault
        | some _ => .error (Stop.exit (- EIO))
      else
        let g2 := { g1 with read_count_value := b }
        verify_loop o start_time stats_clock (i + 1) rest
          { g2 with read_count_value :=
              next_count_value o.cl_ascii_range g2.read_count_value }
    else
      verify_loop o start_time stats_clock (i + 1) rest
        { g with read_count_value :=
            next_count_value o.cl_ascii_range g.read_count_value }

/-- The function `process_read_data`, given the answer of its `read` call. -/
def process_read_data (o : Options) (start_time stats_clock : Timespec)
    (g : Globals) : ReadResult → ReadOutcome
  | .error _ => .returned g (-1)
  | .data rb =>
    let c : Int := rb.length
    if c > 0 then
      match verify_loop o start_time stats_clock 0 rb g with
      | .error t => .stopped t
      | .ok g1 => .returned { g1 with read_count := g1.read_count + c } c
    else
      .returned g c

/-! ## Write path -/

/-- What a `write` call answers: the number of bytes accepted, or `-1` with
an `errno`. -/
inductive WriteResult where
  | accepted (c : Nat)
  | error (errno : Int)
deriving DecidableEq, Repr

/-- A `write` call that was issued: the bytes offered and the answer. -/
structure WriteCall where
  data : List Nat
  result : WriteResult
deriving DecidableEq, Repr

/-- The size of the write attempt, `actual_write_size`, as computed at the top
of the loop body of `process_write_data`. -/
def actual_write_size (o : Options) (g : Globals) : Int :=
  if o.cl_write_after_read == 0 then
    o.write_size
  else
    let a := if g.read_count > g.write_count then g.read_count - g.write_count else 0
    if a > o.write_size then o.write_size else a

/-- The loop that fills `_write_data[0..n-1]` from `_write_count_value`; the
result is the buffer and the value of `_write_count_value` after the loop. -/
def fill_write_data (cl_ascii_range : Int) : Nat → Nat → List Nat × Nat
  | 0, v => ([], v)
  | n + 1, v =>
    let r := fill_write_data cl_ascii_range n (next_count_value cl_ascii_range v)
    (v :: r.1, r.2)

/-- The bytes that a `write` call took from the buffer. -/
def WriteCall.taken (w : WriteCall) : List Nat :=
  match w.result with
  | .accepted c => w.data.take c
  | .error _ => []

/-- The number of bytes that a `write` call counts for: the value of `c`
after the test `if (c < 0)`. -/
def WriteResult.count : WriteResult → Nat
  | .accepted c => c
  | .error _ => 0

/-- The value of `repeat` after a `write` call: unchanged when the call
failed, `0` otherwise. -/
def WriteResult.repeat_after (repeat_ : Int) : WriteResult → Int
  | .accepted _ => 0
  | .error _ => repeat_

/-- One execution of the loop body of `process_write_data` after the test
`actual_write_size == 0`, for the attempt size `n`: the buffer is filled, the
`write` call is answered by `w`, and `_write_count_value` is set back to
`_write_data[c]` on a short write.  The result is the module variables, the
value of `c` added to `count`, the value of `repeat`, and the call issued. -/
def write_attempt (o : Options) (n : Int) (g : Globals) (repeat_ : Int)
    (w : WriteResult) : Globals × Int × Int × WriteCall :=
  let filled := fill_write_data o.cl_ascii_range n.toNat g.write_count_value
  let g1 := { g with write_count_value := filled.2 }
  let c : Int :=
    match w with
    | .accepted c => c
    | .error _ => 0
  let repeat1 : Int := w.repeat_after repeat_
  let g2 :=
    if c < n then { g1 with write_count_value := filled.1.getD c.toNat 0 }
    else g1
  (g2, c, repeat1, { data := filled.1, result := w })

/-- The `do ... while (repeat)` loop of `process_write_data`.  The answers of
the successive `write` calls are taken from the list; the result is `none`
when the list is used up while the loop still has a `write` to issue, that
is, when the call has not returned yet.  Otherwise it is the module
variables, `count` and the `write` calls issued, in order. -/
def write_loop (o : Options) :
    List WriteResult → Globals → Int → Int → List WriteCall →
      Option (Globals × Int × List WriteCall)
  | ws, g, count, repeat_, calls =>
    let n := actual_write_size o g
    if n == 0 then
      some (g, count, calls)
    else
      match ws with
      | [] => none
      | w :: ws' =>
        let r := write_attempt o n g repeat_ w
        let count1 := count + r.2.1
        let calls1 := calls ++ [r.2.2.2]
        if r.2.2.1 != 0 then write_loop o ws' r.1 count1 r.2.2.1 calls1
        else some (r.1, count1, calls1)

/-- The function `process_write_data`, given the answers of its `write`
calls: the module variables afterwards, the value returned and the calls
issued. -/
def process_write_data (o : Options) (g : Globals) (ws : List WriteResult) :
    Option (Globals × Int × List WriteCall) :=
  match write_loop o ws g 0 (if o.cl_tx_bytes == 0 then 1 else 0) [] with
  | none => none
  | some (g1, count, calls) =>
    some ({ g1 with write_count := g1.write_count + count }, count, calls)

/-! ## Runs of the two paths -/

/-- Successive calls of `process_read_data`, one for each chunk of bytes that
a `read` call delivers. -/
def read_chunks (o : Options) (start_time stats_clock : Timespec) :
    List (List Nat) → Globals → Except Stop Globals
  | [], g => .ok g
  | rb :: rest, g =>
    match process_read_data o start_time stats_clock g (.data rb) with
    | .stopped t => .error t
    | .returned g1 _ => read_chunks o start_time stats_clock rest g1

/-- Successive write attempts, each given by its size and the answer of its
`write` call: the module variables afterwards and the calls issued. -/
def write_attempts (o : Options) :
    List (Int × WriteResult) → Globals → Globals × List WriteCall
  | [], g => (g, [])
  | a :: rest, g =>
    let r := write_attempt o a.1 g 0 a.2
    let r2 := write_attempts o rest r.1
    (r2.1, r.2.2.2 :: r2.2)

/-- Successive calls of `process_write_data`, each with the answers of its
`write` calls: the module variables afterwards and all calls issued. -/
def write_calls (o : Options) :
    List (List WriteResult) → Globals → Option (Globals × List WriteCall)
  | [], g => some (g, [])
  | ws :: rest, g =>
    match process_write_data o g ws with
    | none => none
    | some (g1, _, calls) =>
      match write_calls o rest g1 with
      | none => none
      | some (g2, calls2) => some (g2, calls ++ calls2)

/-- The bytes that went out on the line: those taken by the calls, in
order. -/
def sent_bytes (calls : List WriteCall) : List Nat :=
  (calls.map WriteCall.taken).flatten

/-! ## Exit status -/

/-- The function `compute_error_count`. -/
def compute_error_count (cl_no_rx cl_no_tx : Int)
    (write_count read_count error_count : Int) : Int :=
  if (cl_no_rx == 0 && read_count == 0) ||
      (cl_no_tx == 0 && write_count == 0) then
    127
  else
    let result : Int :=
      if cl_no_rx == 1 || cl_no_tx == 1 then
        error_count
      else
        ((write_count - read_count).natAbs : Int) + error_count
    if result > 125 then 125 else result

/-- The exit status as the specification words it: `127` when an enabled
direction moved no byte, the capped mismatch count when exactly one direction
is enabled, and otherwise the capped sum of the count divergence and the
mismatch count. -/
def spec_exit_status (cl_no_rx cl_no_tx : Int)
    (write_count read_count error_count : Int) : Int :=
  if (cl_no_rx = 0 ∧ read_count = 0) ∨ (cl_no_tx = 0 ∧ write_count = 0) then
    127
  else if (cl_no_rx = 0 ∧ cl_no_tx ≠ 0) ∨ (cl_no_rx ≠ 0 ∧ cl_no_tx = 0) then
    min 125 error_count
  else
    min 125 (|write_count - read_count| + error_count)

/-! ## Main loop -/

/-- The variables of `main` that live across the iterations of the loop, with
the module variables and the two command line arguments that the loop itself
resets (`_cl_tx_time`, `_cl_rx_time`).  `events_pollin` and `events_pollout`
are the bits `POLLIN` and `POLLOUT` of `serial_poll.events`. -/
structure LoopState where
  g : Globals
  cl_tx_time : Int
  cl_rx_time : Int
  runtime_no_tx : Int
  runtime_no_rx : Int
  events_pollin : Bool
  events_pollout : Bool
  last_stat : Timespec
  last_timeout : Timespec
  last_read : Timespec
  last_write : Timespec
deriving DecidableEq, Repr

/-- What the environment answers during one iteration: the return value of
`poll` and the bits `POLLIN` and `POLLOUT` of `revents`, the clock read after
`poll`, the answer of `read`, the clock stored in `last_read`, the answers of
the `write` calls, the clock stored in `last_write`, and the clock read by
`dump_serial_port_stats`. -/
structure IterInput where
  retval : Int
  revents_pollin : Bool
  revents_pollout : Bool
  current : Timespec
  read : ReadResult
  read_clock : Timespec
  writes : List WriteResult
  write_clock : Timespec
  stats_clock : Timespec
deriving DecidableEq, Repr

/-- What an iteration did besides updating the state: the value returned by
`process_read_data` and by `process_write_data` when they were called, the
`write` calls issued, the two stall flags when the stall check ran, the
statistics line when one was printed, and whether the messages
"Stopped transmitting." and "Stopped receiving." were printed. -/
structure IterLog where
  read_returned : Option Int
  write_returned : Option Int
  calls : List WriteCall
  stall : Option (Bool × Bool)
  stats : Option StatsLine
  stopped_transmitting : Bool
  stopped_receiving : Bool
deriving DecidableEq, Repr

/-- The log of an iteration that did nothing. -/
def IterLog.empty : IterLog :=
  { read_returned := none, write_returned := none, calls := [], stall := none,
    stats := none, stopped_transmitting := false, stopped_receiving := false }

/-- Where control is after a part of the loop body: it goes on with the rest
of the body, it jumps to the loop condition (`continue`), the process stops,
or `process_write_data` has not returned. -/
inductive Flow where
  | fallthrough (s : LoopState) (log : IterLog)
  | continue_ (s : LoopState) (log : IterLog)
  | stopped (t : Stop)
  | writing
deriving DecidableEq, Repr

/-- The branch `if (serial_poll.revents & POLLIN) ... else ...` of the loop
body. -/
def read_part (o : Options) (start_time : Timespec) (s : LoopState)
    (e : IterInput) : Flow :=
  if e.revents_pollin then
    if o.cl_rx_timeout != 0 then
      match process_read_data o start_time e.stats_clock s.g e.read with
      | .stopped t => .stopped t
      | .returned g c =>
        .continue_
          { s with g := g, last_read := if c > 0 then e.read_clock else s.last_read }
          { IterLog.empty with read_returned := some c }
    else if o.cl_rx_delay != 0 then
      if diff_ms e.current s.last_read > o.cl_rx_delay then
        match process_read_data o start_time e.stats_clock s.g e.read with
        | .stopped t => .stopped t
        | .returned g c =>
          .fallthrough { s with g := g, last_read := e.read_clock }
            { IterLog.empty with read_returned := some c }
      else
        .fallthrough s IterLog.empty
    else
      match process_read_data o start_time e.stats_clock s.g e.read with
      | .stopped t => .stopped t
      | .returned g c =>
        .fallthrough { s with g := g, last_read := e.read_clock }
          { IterLog.empty with read_returned := some c }
  else
    if o.cl_rx_timeout != 0 && decide (diff_ms e.current s.last_read < o.cl_rx_timeout) then
      .continue_ s IterLog.empty
    else
      .fallthrough s IterLog.empty

/-- The call `process_write_data(); clock_gettime(CLOCK_MONOTONIC, &last_write);`
of the loop body. -/
def write_call (o : Options) (s : LoopState) (e : IterInput) (log : IterLog) :
    Flow :=
  match process_write_data o s.g e.writes with
  | none => .writing
  | some (g, count, calls) =>
    .fallthrough { s with g := g, last_write := e.write_clock }
      { log with write_returned := some count, calls := calls }

/-- The branch `if (serial_poll.revents & POLLOUT) ...` of the loop body. -/
def write_part (o : Options) (s : LoopState) (e : IterInput) (log : IterLog) :
    Flow :=
  if e.revents_pollout then
    if o.cl_tx_delay != 0 then
      if diff_ms e.current s.last_write > o.cl_tx_delay then
        write_call o s e log
      else
        .fallthrough s log
    else
      write_call o s e log
  else
    .fallthrough s log

/-- The part `if (retval == -1) ... else if (retval) ...` of the loop body. -/
def transfer_part (o : Options) (start_time : Timespec) (s : LoopState)
    (e : IterInput) : Flow :=
  if e.retval == -1 then
    .fallthrough s IterLog.empty
  else if e.retval != 0 then
    match read_part o start_time s e with
    | .fallthrough s1 log => write_part o s1 e log
    | other => other
  else
    .fallthrough s IterLog.empty

/-- The flags `rx_timeout` and `tx_timeout` computed by the stall check. -/
def stall_flags (s : LoopState) (current : Timespec) : Bool × Bool :=
  let rx_timeout : Bool :=
    s.runtime_no_rx == 0 && decide (diff_ms current s.last_read > 2000)
  let tx_timeout : Bool :=
    s.runtime_no_tx == 0 && decide (diff_ms current s.last_write > 2000)
  let rx_timeout1 : Bool :=
    if s.runtime_no_tx != 0 && s.g.write_count != 0 &&
        s.g.write_count == s.g.read_count then false
    else rx_timeout
  (rx_timeout1, tx_timeout)

/-- The block guarded by `diff_ms(&current, &last_timeout) > 1000`. -/
def stall_check (s : LoopState) (current : Timespec) (log : IterLog) :
    LoopState × IterLog :=
  if diff_ms current s.last_timeout > 1000 then
    let flags := stall_flags s current
    let s1 := if flags.1 || flags.2 then { s with last_timeout := current } else s
    (s1, { log with stall := some flags })
  else
    (s, log)

/-- The block `if (_cl_stats) ...`; `none` when the statistics divide by
zero. -/
def stats_check (o : Options) (start_time : Timespec) (s : LoopState)
    (e : IterInput) (log : IterLog) : Option (LoopState × IterLog) :=
  if o.cl_stats != 0 then
    if e.current.tv_sec - s.last_stat.tv_sec > DUMP_STAT_INTERVAL_SECONDS then
      match dump_serial_port_stats start_time e.stats_clock s.g with
      | none => none
      | some line => some ({ s with last_stat := e.current }, { log with stats := some line })
    else some (s, log)
  else some (s, log)

/-- The block `if (_cl_tx_time) ...`. -/
def tx_time_check (start_time : Timespec) (s : LoopState) (current : Timespec)
    (log : IterLog) : LoopState × IterLog :=
  if s.cl_tx_time != 0 then
    if current.tv_sec - start_time.tv_sec >= s.cl_tx_time then
      ({ s with cl_tx_time := 0, runtime_no_tx := 1, events_pollout := false },
        { log with stopped_transmitting := true })
    else (s, log)
  else (s, log)

/-- The block `if (_cl_rx_time) ...`. -/
def rx_time_check (start_time : Timespec) (s : LoopState) (current : Timespec)
    (log : IterLog) : LoopState × IterLog :=
  if s.cl_rx_time != 0 then
    if current.tv_sec - start_time.tv_sec >= s.cl_rx_time then
      ({ s with cl_rx_time := 0, runtime_no_rx := 1, events_pollin := false },
        { log with stopped_receiving := true })
    else (s, log)
  else (s, log)

/-- The periodic checks at the end of the loop body. -/
def periodic_checks (o : Options) (start_time : Timespec) (s : LoopState)
    (e : IterInput) (log : IterLog) : Flow :=
  let r1 := stall_check s e.current log
  match stats_check o start_time r1.1 e r1.2 with
  | none => .stopped Stop.fault
  | some r2 =>
    let r3 := tx_time_check start_time r2.1 e.current r2.2
    let r4 := rx_time_check start_time r3.1 e.current r3.2
    .fallthrough r4.1 r4.2

/-- The result of one iteration of the loop of `main`. -/
inductive IterResult where
  | continued (s : LoopState) (log : IterLog)
  | stopped (t : Stop)
  | writing
deriving DecidableEq, Repr

/-- One iteration of the loop body of `main`. -/
def iteration (o : Options) (start_time : Timespec) (s : LoopState)
    (e : IterInput) : IterResult :=
  match transfer_part o start_time s e with
  | .stopped t => .stopped t
  | .writing => .writing
  | .continue_ s1 log => .continued s1 log
  | .fallthrough s1 log =>
    match periodic_checks o start_time s1 e log with
    | .stopped t => .stopped t
    | .writing => .writing
    | .continue_ s2 log2 => .continued s2 log2
    | .fallthrough s2 log2 => .continued s2 log2

/-- The answers of an iteration in which `poll` times out at the clock value
`current`: no event, so that no `read` and no `write` is issued. -/
def idle_input (current : Timespec) : IterInput :=
  { retval := 0, revents_pollin := false, revents_pollout := false,
    current := current, read := .error EAGAIN, read_clock := current,
    writes := [], write_clock := current, stats_clock := current }

/-- The condition `!(runtime_no_rx && runtime_no_tx)` of the loop. -/
def loop_condition (s : LoopState) : Bool :=
  !(s.runtime_no_rx != 0 && s.runtime_no_tx != 0)

/-- The state in which `main` enters the loop: the counters of a fresh
process, the expected values seeded with `32` in the ASCII range, and all
timestamps equal to `start_time`. -/
def initial_state (o : Options) (cl_tx_time cl_rx_time : Int)
    (start_time : Timespec) : LoopState :=
  { g :=
      { write_count_value := if o.cl_ascii_range != 0 then 32 else 0
        read_count_value := if o.cl_ascii_range != 0 then 32 else 0
        write_count := 0, read_count := 0, error_count := 0 }
    cl_tx_time := cl_tx_time
    cl_rx_time := cl_rx_time
    runtime_no_tx := o.cl_no_tx
    runtime_no_rx := o.cl_no_rx
    events_pollin := o.cl_no_rx == 0
    events_pollout := o.cl_no_tx == 0
    last_stat := start_time
    last_timeout := start_time
    last_read := start_time
    last_write := start_time }

/-- How a run of the loop over a list of environment answers ends: the loop
was left, the inputs were used up with the loop still running, the process
stopped, or `process_write_data` has not returned. -/
inductive RunResult where
  | left (s : LoopState)
  | running (s : LoopState)
  | stopped (t : Stop)
  | writing
deriving DecidableEq, Repr

/-- The loop `while (!(runtime_no_rx && runtime_no_tx))` of `main`, run over
the environment answers of its successive iterations. -/
def run_loop (o : Options) (start_time : Timespec) :
    List IterInput → LoopState → RunResult
  | es, s =>
    if loop_condition s then
      match es with
      | [] => .running s
      | e :: es' =>
        match iteration o start_time s e with
        | .continued s1 _ => run_loop o start_time es' s1
        | .stopped t => .stopped t
        | .writing => .writing
    else
      .left s

/-- The answers of an iteration at the clock value `current` in which `poll`
reports the channel readable only and `read` delivers the bytes `rb`. -/
def busy_input (current : Timespec) (rb : List Nat) : IterInput :=
  { idle_input current with retval := 1, revents_pollin := true, read := .data rb }

/-! ## End of `main` -/

/-- The statements of `main` after the loop: the final call of
`dump_serial_port_stats`, which reads the clock `final_clock`, and the return
of `compute_error_count()`.  The result is the exit status, or the fault of
the division by zero. -/
def main_finish (o : Options) (start_time final_clock : Timespec) (s : LoopState) :
    Except Stop Int :=
  match dump_serial_port_stats start_time final_clock s.g with
  | none => .error Stop.fault
  | some _ =>
    .ok (compute_error_count o.cl_no_rx o.cl_no_tx s.g.write_count s.g.read_count
      s.g.error_count)

/-- How a run of `main` from the entry of the loop ends: it returns an exit
status, the process stops before, the answers are used up with the loop still
running, or `process_write_data` has not returned. -/
inductive MainResult where
  | returned (status : Int)
  | stopped (t : Stop)
  | running (s : LoopState)
  | writing
deriving DecidableEq, Repr

/-- The function `main` from the entry of the loop on: the loop over the
answers of its iterations, then the final statistics and the exit status. -/
def main_run (o : Options) (cl_tx_time cl_rx_time : Int) (start_time : Timespec)
    (es : List IterInput) (final_clock : Timespec) : MainResult :=
  match run_loop o start_time es (initial_state o cl_tx_time cl_rx_time start_time) with
  | .left s =>
    match main_finish o start_time final_clock s with
    | .ok status => .returned status
    | .error t => .stopped t
  | .running s => .running s
  | .stopped t => .stopped t
  | .writing => .writing

/-! ## The verifier byte by byte -/

/-- The number of mismatches that the loop of `process_read_data` counts over
the bytes of a stream, with stop-on-error off: a byte counts when it is not
the first byte ever received (`first`) and differs from the expected value
`rcv`; after a byte `b` the expected value is `next_count_value(b)`. -/
def count_mismatches (cl_ascii_range : Int) : Bool → Nat → List Nat → Nat
  | _, _, [] => 0
  | first, rcv, b :: rest =>
    (if first || b == rcv then 0 else 1) +
      count_mismatches cl_ascii_range false (next_count_value cl_ascii_range b) rest

/-- The expected value after the bytes of a stream: the successor of the last
byte, or the value before when the stream is empty. -/
def expected_after (cl_ascii_range : Int) : Nat → List Nat → Nat
  | rcv, [] => rcv
  | _, b :: rest => expected_after cl_ascii_range (next_count_value cl_ascii_range b) rest

/-! ## Theorems: exit status -/

/-- The two tests of `compute_error_count`, read as propositions. -/
theorem compute_error_count_eq (noRx noTx W R E : Int) :
    compute_error_count noRx noTx W R E =
      if (noRx = 0 ∧ R = 0) ∨ (noTx = 0 ∧ W = 0) then 127
      else if noRx = 1 ∨ noTx = 1 then min 125 E
      else min 125 (|W - R| + E) := by
  unfold compute_error_count
  by_cases h1 : (noRx = 0 ∧ R = 0) ∨ (noTx = 0 ∧ W = 0)
  · simp [h1]
  · have h1' : ((noRx == 0 && R == 0) || (noTx == 0 && W == 0)) = false := by
      simpa using h1
    rw [if_neg h1, h1']
    by_cases h2 : noRx = 1 ∨ noTx = 1
    · have h2' : (noRx == 1 || noTx == 1) = true := by simpa using h2
      simp only [h2', if_pos h2, if_true, Bool.false_eq_true, if_false]
      rcases le_or_lt E 125 with h | h
      · rw [min_eq_right h, if_neg (by omega)]
      · rw [min_eq_left (le_of_lt h), if_pos (by omega)]
    · have h2' : (noRx == 1 || noTx == 1) = false := by simpa using h2
      simp only [h2', if_neg h2, Bool.false_eq_true, if_false]
      rw [Int.natCast_natAbs]
      rcases le_or_lt (|W - R| + E) 125 with h | h
      · rw [min_eq_right h, if_neg (by omega)]
      · rw [min_eq_left (le_of_lt h), if_pos (by omega)]

/-- For flags in `{0, 1}`, `compute_error_count` is the case analysis of the
specification whenever a direction is enabled, and also with both directions
disabled when the two byte counts are equal. -/
theorem compute_error_count_agrees (noRx noTx W R E : Int)
    (hrx : noRx = 0 ∨ noRx = 1) (htx : noTx = 0 ∨ noTx = 1)
    (hreach : noRx = 1 → noTx = 1 → W = R) :
    compute_error_count noRx noTx W R E = spec_exit_status noRx noTx W R E := by
  rw [compute_error_count_eq]
  unfold spec_exit_status
  by_cases h1 : (noRx = 0 ∧ R = 0) ∨ (noTx = 0 ∧ W = 0)
  · rw [if_pos h1, if_pos h1]
  · rw [if_neg h1, if_neg h1]
    by_cases h3 : (noRx = 0 ∧ noTx ≠ 0) ∨ (noRx ≠ 0 ∧ noTx = 0)
    · rw [if_pos h3, if_pos (by omega)]
    · rw [if_neg h3]
      by_cases h2 : noRx = 1 ∨ noTx = 1
      · have hb : noRx = 1 ∧ noTx = 1 := by omega
        rw [if_pos h2, hreach hb.1 hb.2, sub_self, abs_zero, zero_add]
      · rw [if_neg h2]

/-! ## Theorems: sequence generator -/

/-- In the full range `next_count_value` is the successor modulo 256. -/
theorem next_count_value_full (c : Nat) :
    next_count_value 0 c = (c + 1) % 256 := by
  simp [next_count_value]

/-- In the ASCII range `next_count_value` sends every value whose successor
modulo 256 is at least `127` to `32`. -/
theorem next_count_value_ascii (a : Int) (ha : a ≠ 0) (c : Nat) :
    next_count_value a c = if 127 ≤ (c + 1) % 256 then 32 else (c + 1) % 256 := by
  simp [next_count_value, ha]

/-- In the full range, `k` applications of `next_count_value` add `k` modulo
256. -/
theorem next_iterate_full (k b : Nat) (hb : b < 256) :
    (next_count_value 0)^[k] b = (b + k) % 256 := by
  induction k with
  | zero => simp; omega
  | succ n ih =>
    rw [Function.iterate_succ_apply', ih, next_count_value_full]
    omega

/-- In the ASCII range, `k` applications of `next_count_value` move `k`
places round the 95 values `32..126`. -/
theorem next_iterate_ascii (a : Int) (ha : a ≠ 0) (k c : Nat)
    (h1 : 32 ≤ c) (h2 : c ≤ 126) :
    (next_count_value a)^[k] c = 32 + (c - 32 + k) % 95 := by
  induction k with
  | zero => simp; omega
  | succ n ih =>
    rw [Function.iterate_succ_apply', ih, next_count_value_ascii a ha]
    split <;> omega

/-- C2: in the full range the cycle of `next_count_value` through any byte has
length exactly 256; in the ASCII range the cycle through any value of
`32..126` has length exactly 95, stays in `32..126`, and `126` is followed by
`32`. -/
theorem next_count_value_cycle (a : Int) (ha : a ≠ 0) (b c : Nat) (hb : b < 256)
    (hc : 32 ≤ c ∧ c ≤ 126) :
    ((next_count_value 0)^[256] b = b ∧
      ∀ k, 0 < k → k < 256 → (next_count_value 0)^[k] b ≠ b) ∧
    ((next_count_value a)^[95] c = c ∧
      (∀ k, 0 < k → k < 95 → (next_count_value a)^[k] c ≠ c) ∧
      (∀ k, 32 ≤ (next_count_value a)^[k] c ∧ (next_count_value a)^[k] c ≤ 126) ∧
      next_count_value a 126 = 32) := by
  refine ⟨⟨?_, ?_⟩, ?_, ?_, ?_, ?_⟩
  · rw [next_iterate_full _ _ hb]; omega
  · intro k h0 h1
    rw [next_iterate_full _ _ hb]; omega
  · rw [next_iterate_ascii a ha _ _ hc.1 hc.2]; omega
  · intro k h0 h1
    rw [next_iterate_ascii a ha _ _ hc.1 hc.2]; omega
  · intro k
    rw [next_iterate_ascii a ha _ _ hc.1 hc.2]; omega
  · rw [next_count_value_ascii a ha]; rfl

/-- C2 at the byte `255` (full range) and at `126` (ASCII range selected by
`-A`). -/
theorem next_count_value_cycle_witness :
    ((next_count_value 0)^[256] 255 = 255 ∧
      ∀ k, 0 < k → k < 256 → (next_count_value 0)^[k] 255 ≠ 255) ∧
    ((next_count_value 1)^[95] 126 = 126 ∧
      (∀ k, 0 < k → k < 95 → (next_count_value 1)^[k] 126 ≠ 126) ∧
      (∀ k, 32 ≤ (next_count_value 1)^[k] 126 ∧ (next_count_value 1)^[k] 126 ≤ 126) ∧
      next_count_value 1 126 = 32) :=
  next_count_value_cycle 1 (by decide) 255 126 (by decide) (by decide)

/-! ## Theorems: write path -/

/-- The buffer fill produces the sequence of `n` values from `v` and leaves
the write counter `n` places further. -/
theorem fill_write_data_eq (a : Int) (n v : Nat) :
    fill_write_data a n v =
      (List.iterate (next_count_value a) v n, (next_count_value a)^[n] v) := by
  induction n generalizing v with
  | zero => rfl
  | succ n ih =>
    simp only [fill_write_data, ih, List.iterate, Function.iterate_succ_apply]

/-- The value at index `c` of the sequence of `n` values from `v`. -/
theorem iterate_getD (f : Nat → Nat) (v n c d : Nat) (h : c < n) :
    (List.iterate f v n).getD c d = f^[c] v := by
  rw [List.getD_eq_getElem _ _ (by simpa using h), List.getElem_iterate]

/-- One write attempt of size `n` that counts for `c <= n` bytes leaves the
write counter `c` places further. -/
theorem write_attempt_eq (o : Options) (n : Int) (g : Globals) (rep : Int)
    (w : WriteResult) (hc : (w.count : Int) ≤ n) :
    write_attempt o n g rep w =
      ({ g with write_count_value :=
            (next_count_value o.cl_ascii_range)^[w.count] g.write_count_value },
        (w.count : Int), w.repeat_after rep,
        { data := List.iterate (next_count_value o.cl_ascii_range) g.write_count_value n.toNat
          result := w }) := by
  have hn : 0 ≤ n := le_trans (Int.ofNat_nonneg _) hc
  obtain ⟨m, rfl⟩ := Int.eq_ofNat_of_zero_le hn
  have hcm : w.count ≤ m := by exact_mod_cast hc
  unfold write_attempt
  simp only [fill_write_data_eq, Int.toNat_ofNat]
  cases w with
  | accepted c =>
    simp only [WriteResult.count] at hcm ⊢
    by_cases h : (c : Int) < (m : Int)
    · have h' : c < m := by exact_mod_cast h
      simp only [h, if_true, Int.toNat_ofNat, iterate_getD _ _ _ _ _ h']
    · have h' : c = m := by omega
      subst h'
      simp only [h, if_false]
  | error e =>
    simp only [WriteResult.count] at hcm ⊢
    by_cases h : (0 : Int) < (m : Int)
    · have h' : 0 < m := by exact_mod_cast h
      simp only [h, if_true, Int.toNat_zero, iterate_getD _ _ _ _ _ h',
        Function.iterate_zero, id_eq, Nat.cast_zero]
    · have h' : m = 0 := by omega
      subst h'
      simp

/-- The bytes taken by a call that was offered the sequence of `n` values from
`v` and counts for `c <= n` bytes are the first `c` values of the sequence. -/
theorem taken_iterate (f : Nat → Nat) (v n : Nat) (w : WriteResult)
    (hc : w.count ≤ n) :
    WriteCall.taken { data := List.iterate f v n, result := w } =
      List.iterate f v w.count := by
  cases w with
  | accepted c =>
    simp only [WriteCall.taken, WriteResult.count, List.take_iterate] at hc ⊢
    rw [min_eq_left hc]
  | error e => simp [WriteCall.taken, WriteResult.count]

/-- The last value of the non-empty sequence of `c` values from `v`. -/
theorem getLast?_iterate (f : Nat → Nat) (v c : Nat) (hc : 1 ≤ c) :
    (List.iterate f v c).getLast? = some (f^[c - 1] v) := by
  obtain ⟨m, rfl⟩ : ∃ m, c = m + 1 := ⟨c - 1, by omega⟩
  rw [List.iterate_add]
  simp [List.iterate]

/-- Successive write attempts, each counting for no more bytes than it
offered, send the unbroken sequence from the write counter and leave the
counter at the first value not sent. -/
theorem write_attempts_eq (o : Options) (l : List (Int × WriteResult))
    (g : Globals) (hl : ∀ a ∈ l, ((a.2).count : Int) ≤ a.1) :
    sent_bytes (write_attempts o l g).2 =
        List.iterate (next_count_value o.cl_ascii_range) g.write_count_value
          (l.map fun a => (a.2).count).sum ∧
      (write_attempts o l g).1.write_count_value =
        (next_count_value o.cl_ascii_range)^[(l.map fun a => (a.2).count).sum]
          g.write_count_value := by
  induction l generalizing g with
  | nil => simp [write_attempts, sent_bytes]
  | cons a rest ih =>
    have ha : ((a.2).count : Int) ≤ a.1 := hl a (List.mem_cons_self _ _)
    have h0 : 0 ≤ a.1 := le_trans (Int.ofNat_nonneg _) ha
    have ht : (a.2).count ≤ a.1.toNat := by omega
    have hrest : ∀ b ∈ rest, ((b.2).count : Int) ≤ b.1 :=
      fun b hb => hl b (List.mem_cons_of_mem _ hb)
    simp only [write_attempts, write_attempt_eq o a.1 g 0 a.2 ha, List.map_cons,
      List.sum_cons]
    obtain ⟨ih1, ih2⟩ := ih
      { g with write_count_value :=
          (next_count_value o.cl_ascii_range)^[(a.2).count] g.write_count_value } hrest
    constructor
    · have : ∀ (c : WriteCall) (cs : List WriteCall),
          sent_bytes (c :: cs) = c.taken ++ sent_bytes cs := by
        intro c cs; simp [sent_bytes]
      rw [this, ih1, taken_iterate _ _ _ _ ht, List.iterate_add]
    · rw [ih2, add_comm, Function.iterate_add_apply]

/-- The bytes sent by two runs of calls. -/
theorem sent_bytes_append (a b : List WriteCall) :
    sent_bytes (a ++ b) = sent_bytes a ++ sent_bytes b := by
  simp [sent_bytes, List.map_append, List.flatten_append]

/-- The attempt size depends on the two byte counts only. -/
theorem actual_write_size_congr (o : Options) (g g' : Globals)
    (h1 : g'.read_count = g.read_count) (h2 : g'.write_count = g.write_count) :
    actual_write_size o g' = actual_write_size o g := by
  simp only [actual_write_size, h1, h2]

/-- When the loop of `process_write_data` returns, its `write` calls having
accepted no more than they were offered, the bytes it sent are the next `m`
values of the sequence from the write counter, `m` being the increase of
`count`, and the write counter is `m` places further. -/
theorem write_loop_sent (o : Options) (ws : List WriteResult) (g g' : Globals)
    (count rep count' : Int) (calls calls' : List WriteCall)
    (h : write_loop o ws g count rep calls = some (g', count', calls'))
    (hwf : ∀ w ∈ ws, ((w.count : Nat) : Int) ≤ actual_write_size o g) :
    ∃ m : Nat, count' = count + (m : Int) ∧
      sent_bytes calls' = sent_bytes calls ++
        List.iterate (next_count_value o.cl_ascii_range) g.write_count_value m ∧
      g'.write_count_value =
        (next_count_value o.cl_ascii_range)^[m] g.write_count_value ∧
      g'.write_count = g.write_count := by
  induction ws generalizing g count rep calls with
  | nil =>
    unfold write_loop at h
    simp only at h
    split at h
    · simp only [Option.some.injEq, Prod.mk.injEq] at h
      obtain ⟨rfl, rfl, rfl⟩ := h
      exact ⟨0, by simp, by simp [List.iterate], rfl, rfl⟩
    · cases h
  | cons w ws ih =>
    unfold write_loop at h
    simp only at h
    split at h
    · simp only [Option.some.injEq, Prod.mk.injEq] at h
      obtain ⟨rfl, rfl, rfl⟩ := h
      exact ⟨0, by simp, by simp [List.iterate], rfl, rfl⟩
    · have hw : ((w.count : Nat) : Int) ≤ actual_write_size o g :=
        hwf w (List.mem_cons_self _ _)
      have h0 : 0 ≤ actual_write_size o g := le_trans (Int.ofNat_nonneg _) hw
      have ht : w.count ≤ (actual_write_size o g).toNat := by omega
      have ha := write_attempt_eq o (actual_write_size o g) g rep w hw
      have hsent : sent_bytes (calls ++ [(write_attempt o (actual_write_size o g) g rep w).2.2.2]) =
          sent_bytes calls ++
            List.iterate (next_count_value o.cl_ascii_range) g.write_count_value w.count := by
        rw [sent_bytes_append, ha]
        simp only [sent_bytes, List.map_cons, List.map_nil, List.flatten_cons,
          List.flatten_nil, List.append_nil]
        rw [taken_iterate _ _ _ _ ht]
      split at h
      · have hsz : actual_write_size o (write_attempt o (actual_write_size o g) g rep w).1 =
            actual_write_size o g := by
          rw [ha]
          exact actual_write_size_congr o _ g rfl rfl
        obtain ⟨m, h1, h2, h3, h4⟩ := ih _ _ _ _ h (by
          intro w' hw'
          rw [hsz]
          exact hwf w' (List.mem_cons_of_mem _ hw'))
        refine ⟨w.count + m, ?_, ?_, ?_, ?_⟩
        · rw [h1, ha]; push_cast; ring
        · rw [h2, hsent, ha, List.append_assoc, ← List.iterate_add]
        · rw [h3, ha, add_comm, Function.iterate_add_apply]
        · rw [h4, ha]
      · simp only [Option.some.injEq, Prod.mk.injEq] at h
        obtain ⟨rfl, rfl, rfl⟩ := h
        refine ⟨w.count, ?_, hsent, ?_, ?_⟩
        · rw [ha]
        · rw [ha]
        · rw [ha]

/-- When a call of `process_write_data` returns `c`, its `write` calls having
accepted no more than they were offered, the bytes it sent are the next `c`
values of the sequence from the write counter, and `bytesWritten` has grown
by `c`. -/
theorem process_write_data_sent (o : Options) (ws : List WriteResult)
    (g g' : Globals) (c : Int) (calls : List WriteCall)
    (h : process_write_data o g ws = some (g', c, calls))
    (hwf : ∀ w ∈ ws, ((w.count : Nat) : Int) ≤ actual_write_size o g) :
    ∃ m : Nat, c = (m : Int) ∧
      sent_bytes calls =
        List.iterate (next_count_value o.cl_ascii_range) g.write_count_value m ∧
      g'.write_count_value =
        (next_count_value o.cl_ascii_range)^[m] g.write_count_value ∧
      g'.write_count = g.write_count + c := by
  unfold process_write_data at h
  split at h
  · cases h
  · rename_i g1 count calls1 hl
    simp only [Option.some.injEq, Prod.mk.injEq] at h
    obtain ⟨rfl, rfl, rfl⟩ := h
    obtain ⟨m, h1, h2, h3, h4⟩ := write_loop_sent o ws g g1 _ _ _ _ _ hl hwf
    refine ⟨m, by rw [h1]; simp, ?_, h3, ?_⟩
    · rw [h2]; simp [sent_bytes]
    · simp only [h4]

/-- The buffer offered by a write attempt of size `n` is the sequence of `n`
values from the write counter, whatever the `write` call answers. -/
theorem write_attempt_data (o : Options) (n : Int) (g : Globals) (rep : Int)
    (w : WriteResult) :
    (write_attempt o n g rep w).2.2.2.data =
      List.iterate (next_count_value o.cl_ascii_range) g.write_count_value n.toNat := by
  simp [write_attempt, fill_write_data_eq]

/-- C4: a write attempt of size `n` of which the `write` call accepts `c <= n`
bytes (a failed or would-block call counting for `0`) leaves the write counter
at `next^c(v)`, the first unsent value; the bytes taken are `v, ...,
next^(c-1)(v)`; the first byte offered by the next attempt is the successor of
the last accepted byte; over successive attempts the bytes taken form the
unbroken sequence from `v`; and so do the bytes sent by any call of
`process_write_data` that returns. -/
theorem partial_write_resumption (o : Options) (g : Globals) (n rep : Int)
    (w : WriteResult) (l : List (Int × WriteResult))
    (hc : (w.count : Int) ≤ n) (hl : ∀ a ∈ l, ((a.2).count : Int) ≤ a.1) :
    (write_attempt o n g rep w).1.write_count_value =
        (next_count_value o.cl_ascii_range)^[w.count] g.write_count_value ∧
      (write_attempt o n g rep w).2.2.2.taken =
        List.iterate (next_count_value o.cl_ascii_range) g.write_count_value w.count ∧
      (∀ (n' rep' : Int) (w' : WriteResult), 1 ≤ n' → 1 ≤ w.count →
        ∃ x, (write_attempt o n g rep w).2.2.2.taken.getLast? = some x ∧
          (write_attempt o n' (write_attempt o n g rep w).1 rep' w').2.2.2.data.head? =
            some (next_count_value o.cl_ascii_range x)) ∧
      sent_bytes (write_attempts o l g).2 =
        List.iterate (next_count_value o.cl_ascii_range) g.write_count_value
          (l.map fun a => (a.2).count).sum ∧
      (write_attempts o l g).1.write_count_value =
        (next_count_value o.cl_ascii_range)^[(l.map fun a => (a.2).count).sum]
          g.write_count_value ∧
      (∀ (ws : List WriteResult) (g' : Globals) (c : Int) (calls : List WriteCall),
        process_write_data o g ws = some (g', c, calls) →
        (∀ w' ∈ ws, ((w'.count : Nat) : Int) ≤ actual_write_size o g) →
        sent_bytes calls =
            List.iterate (next_count_value o.cl_ascii_range) g.write_count_value c.toNat ∧
          g'.write_count_value =
            (next_count_value o.cl_ascii_range)^[c.toNat] g.write_count_value ∧
          g'.write_count = g.write_count + c) := by
  have h0 : 0 ≤ n := le_trans (Int.ofNat_nonneg _) hc
  have ht : w.count ≤ n.toNat := by omega
  have e := write_attempt_eq o n g rep w hc
  have etaken : (write_attempt o n g rep w).2.2.2.taken =
      List.iterate (next_count_value o.cl_ascii_range) g.write_count_value w.count := by
    rw [e]; exact taken_iterate _ _ _ _ ht
  have hatt := write_attempts_eq o l g hl
  refine ⟨by rw [e], etaken, ?_, hatt.1, hatt.2, ?_⟩
  · intro n' rep' w' hn' hc1
    refine ⟨_, by rw [etaken]; exact getLast?_iterate _ _ _ hc1, ?_⟩
    rw [write_attempt_data, e]
    obtain ⟨m, hm⟩ : ∃ m, n'.toNat = m + 1 := ⟨n'.toNat - 1, by omega⟩
    obtain ⟨k, hk⟩ : ∃ k, w.count = k + 1 := ⟨w.count - 1, by omega⟩
    simp only [hm, hk, List.iterate, List.head?_cons, Nat.add_sub_cancel,
      Function.iterate_succ_apply']
  · intro ws g' c calls hp hwf
    obtain ⟨m, h1, h2, h3, h4⟩ := process_write_data_sent o ws g g' c calls hp hwf
    subst h1
    exact ⟨by rw [h2, Int.toNat_ofNat], by rw [h3, Int.toNat_ofNat], h4⟩

/-- C4 at a write of size 10 of which 6 bytes are accepted, from the counter
`120` in the ASCII range: the counter is left at `126`. -/
theorem partial_write_resumption_witness :
    (write_attempt
        { default_options with cl_tx_bytes := 10, cl_ascii_range := 1, write_size := 10 }
        10
        { write_count_value := 120, read_count_value := 32, write_count := 0,
          read_count := 0, error_count := 0 }
        0 (WriteResult.accepted 6)).1.write_count_value =
      (next_count_value 1)^[6] 120 :=
  (partial_write_resumption _ _ 10 0 (WriteResult.accepted 6)
    [(10, WriteResult.accepted 6), (10, WriteResult.error 11)]
    (by decide) (by decide)).1

/-! ## Theorems: read path -/

/-- A chunk that continues the sequence from the expected value passes the
verification loop without a mismatch, at any index and for any setting of
stop-on-error, and leaves the expected value after the chunk. -/
theorem verify_loop_in_sync (o : Options) (st sc : Timespec) (k i : Nat)
    (g : Globals) (x : Nat) (hx : g.read_count_value = x) :
    verify_loop o st sc i (List.iterate (next_count_value o.cl_ascii_range) x k) g =
      .ok { g with read_count_value := (next_count_value o.cl_ascii_range)^[k] x } := by
  induction k generalizing i g x with
  | zero => subst hx; rfl
  | succ k ih =>
    subst hx
    simp only [List.iterate, verify_loop, bne_self_eq_false, Bool.false_eq_true, if_false,
      ite_self, Function.iterate_succ_apply]
    exact ih (i + 1) _ _ rfl

/-- The first chunk ever received, when it is a sequence from `x`, passes the
verification loop without a mismatch: its first byte seeds the expected
value. -/
theorem verify_loop_first (o : Options) (st sc : Timespec) (k : Nat)
    (g : Globals) (x : Nat) (h0 : g.read_count = 0) :
    verify_loop o st sc 0 (List.iterate (next_count_value o.cl_ascii_range) x (k + 1)) g =
      .ok { g with read_count_value := (next_count_value o.cl_ascii_range)^[k + 1] x } := by
  simp only [List.iterate, verify_loop, h0, beq_self_eq_true, Bool.and_self, if_true,
    Function.iterate_succ_apply]
  exact verify_loop_in_sync o st sc k 1 _ _ rfl

/-- A `read` that delivers a chunk continuing the sequence from the expected
value. -/
theorem process_read_data_in_sync (o : Options) (st sc : Timespec) (k : Nat)
    (g : Globals) (x : Nat) (hx : g.read_count_value = x) :
    process_read_data o st sc g
        (.data (List.iterate (next_count_value o.cl_ascii_range) x k)) =
      .returned
        { g with
          read_count_value := (next_count_value o.cl_ascii_range)^[k] x
          read_count := g.read_count + k } k := by
  simp only [process_read_data, List.length_iterate, verify_loop_in_sync o st sc k 0 g x hx]
  cases k with
  | zero => subst hx; simp
  | succ k =>
    have : (0 : Int) < ((k + 1 : Nat) : Int) := by omega
    simp only [gt_iff_lt, this, if_true]

/-- The first `read` that delivers bytes, when they are a sequence from
`x`. -/
theorem process_read_data_first (o : Options) (st sc : Timespec) (k : Nat)
    (g : Globals) (x : Nat) (h0 : g.read_count = 0) :
    process_read_data o st sc g
        (.data (List.iterate (next_count_value o.cl_ascii_range) x (k + 1))) =
      .returned
        { g with
          read_count_value := (next_count_value o.cl_ascii_range)^[k + 1] x
          read_count := ((k + 1 : Nat) : Int) } ((k + 1 : Nat) : Int) := by
  have : (0 : Int) < ((k + 1 : Nat) : Int) := by omega
  simp only [process_read_data, List.length_iterate, verify_loop_first o st sc k g x h0,
    gt_iff_lt, this, if_true, h0, zero_add]

/-- A sequence of `k` values from `x` split in two: both parts are sequences. -/
theorem iterate_split (f : Nat → Nat) (x k : Nat) (l1 l2 : List Nat)
    (h : l1 ++ l2 = List.iterate f x k) :
    l1.length ≤ k ∧ l1 = List.iterate f x l1.length ∧
      l2 = List.iterate f (f^[l1.length] x) (k - l1.length) := by
  have hlen : l1.length + l2.length = k := by
    have := congrArg List.length h
    simpa using this
  have hk : k = l1.length + (k - l1.length) := by omega
  rw [hk, List.iterate_add] at h
  have := List.append_inj h (by simp)
  exact ⟨by omega, this.1, this.2⟩

/-- Chunks that together continue the sequence from the expected value are
read without a mismatch. -/
theorem read_chunks_in_sync (o : Options) (st sc : Timespec)
    (chunks : List (List Nat)) (g : Globals) (x k : Nat)
    (hx : g.read_count_value = x)
    (h : chunks.flatten = List.iterate (next_count_value o.cl_ascii_range) x k) :
    read_chunks o st sc chunks g =
      .ok
        { g with
          read_count_value := (next_count_value o.cl_ascii_range)^[k] x
          read_count := g.read_count + k } := by
  induction chunks generalizing g x k with
  | nil =>
    have hk : k = 0 := by
      have := congrArg List.length h
      simpa using this.symm
    subst hk; subst hx
    simp [read_chunks]
  | cons rb rest ih =>
    rw [List.flatten_cons] at h
    obtain ⟨hle, h1, h2⟩ := iterate_split _ _ _ _ _ h
    rw [read_chunks, h1, process_read_data_in_sync o st sc _ g x hx]
    simp only [List.length_iterate]
    rw [ih _ _ (k - rb.length) rfl h2]
    simp only [← Function.iterate_add_apply]
    have e1 : k - rb.length + rb.length = k := by omega
    have e2 : g.read_count + (rb.length : Int) + ((k - rb.length : Nat) : Int) =
        g.read_count + (k : Int) := by omega
    rw [e1, e2]

/-- Chunks that together are the sequence of `k + 1` values from `x` are read
without a mismatch by a process that has not received a byte before. -/
theorem read_chunks_first (o : Options) (st sc : Timespec)
    (chunks : List (List Nat)) (g : Globals) (x k : Nat)
    (h0 : g.read_count = 0)
    (h : chunks.flatten = List.iterate (next_count_value o.cl_ascii_range) x (k + 1)) :
    read_chunks o st sc chunks g =
      .ok
        { g with
          read_count_value := (next_count_value o.cl_ascii_range)^[k + 1] x
          read_count := ((k + 1 : Nat) : Int) } := by
  induction chunks generalizing g with
  | nil => simp [List.iterate] at h
  | cons rb rest ih =>
    rw [List.flatten_cons] at h
    obtain ⟨hle, h1, h2⟩ := iterate_split _ _ _ _ _ h
    cases hrb : rb.length with
    | zero =>
      have hnil : rb = [] := List.length_eq_zero.mp hrb
      subst hnil
      simp only [read_chunks, process_read_data, List.length_nil, Nat.cast_zero, gt_iff_lt,
        lt_self_iff_false, if_false]
      exact ih g h0 (by simpa using h)
    | succ m =>
      rw [hrb] at h1 h2 hle
      rw [read_chunks, h1, process_read_data_first o st sc m g x h0]
      simp only
      rw [read_chunks_in_sync o st sc rest _ _ (k + 1 - (m + 1)) rfl h2]
      simp only [← Function.iterate_add_apply]
      have e1 : k + 1 - (m + 1) + (m + 1) = k + 1 := by omega
      have e2 : ((m + 1 : Nat) : Int) + ((k + 1 - (m + 1) : Nat) : Int) =
          ((k + 1 : Nat) : Int) := by omega
      rw [e1, e2]

/-! ## Theorems: round trip -/

/-- With write-follows-read off, a call of `process_write_data` whose `write`
accepts the whole buffer of `S >= 1` bytes returns `S`, having issued that one
call with the sequence of `S` values from the write counter. -/
theorem process_write_data_full (o : Options) (g : Globals) (S : Nat)
    (rest : List WriteResult) (hw : o.cl_write_after_read = 0)
    (hS : o.write_size = (S : Int)) (hS1 : 1 ≤ S) :
    process_write_data o g (WriteResult.accepted S :: rest) =
      some
        ({ g with
            write_count_value :=
              (next_count_value o.cl_ascii_range)^[S] g.write_count_value
            write_count := g.write_count + (S : Int) },
          (S : Int),
          [{ data := List.iterate (next_count_value o.cl_ascii_range) g.write_count_value S
             result := WriteResult.accepted S }]) := by
  have hn : actual_write_size o g = (S : Int) := by
    simp [actual_write_size, hw, hS]
  have hne : ((S : Int) == 0) = false := by
    simp only [beq_eq_false_iff_ne, ne_eq]; omega
  have ha := write_attempt_eq o (S : Int) g (if o.cl_tx_bytes == 0 then 1 else 0)
    (WriteResult.accepted S) (by simp [WriteResult.count])
  simp only [WriteResult.count, Int.toNat_ofNat, WriteResult.repeat_after] at ha
  simp only [process_write_data, write_loop, hn, hne, Bool.false_eq_true, if_false, ha,
    bne_self_eq_false, zero_add, List.nil_append]

/-- With write-follows-read off, `k` calls of `process_write_data` that each
have the whole buffer of `S >= 1` bytes accepted send the sequence of `k * S`
values from the write counter. -/
theorem write_calls_full (o : Options) (k : Nat) (g : Globals) (S : Nat)
    (hw : o.cl_write_after_read = 0) (hS : o.write_size = (S : Int)) (hS1 : 1 ≤ S) :
    ∃ calls,
      write_calls o (List.replicate k [WriteResult.accepted S]) g =
        some
          ({ g with
              write_count_value :=
                (next_count_value o.cl_ascii_range)^[k * S] g.write_count_value
              write_count := g.write_count + ((k * S : Nat) : Int) },
            calls) ∧
      sent_bytes calls =
        List.iterate (next_count_value o.cl_ascii_range) g.write_count_value (k * S) := by
  induction k generalizing g with
  | zero => exact ⟨[], by simp [write_calls], by simp [sent_bytes, List.iterate]⟩
  | succ k ih =>
    obtain ⟨calls, h1, h2⟩ := ih
      { g with
        write_count_value := (next_count_value o.cl_ascii_range)^[S] g.write_count_value
        write_count := g.write_count + (S : Int) }
    simp only at h1 h2
    refine ⟨[{ data := List.iterate (next_count_value o.cl_ascii_range) g.write_count_value S
               result := WriteResult.accepted S }] ++ calls, ?_, ?_⟩
    · simp only [List.replicate_succ, write_calls, process_write_data_full o g S [] hw hS hS1,
        h1]
      simp only [← Function.iterate_add_apply]
      have e1 : k * S + S = (k + 1) * S := by ring
      have e2 : g.write_count + (S : Int) + ((k * S : Nat) : Int) =
          g.write_count + (((k + 1) * S : Nat) : Int) := by push_cast; ring
      rw [e1, e2]
    · have hcons : ∀ (c : WriteCall) (cs : List WriteCall),
          sent_bytes ([c] ++ cs) = c.taken ++ sent_bytes cs := by
        intro c cs; simp [sent_bytes]
      rw [hcons, h2, taken_iterate _ _ _ _ (by simp [WriteResult.count])]
      simp only [WriteResult.count]
      have e1 : (k + 1) * S = S + k * S := by ring
      rw [e1, List.iterate_add]

/-- C3: the bytes that the write path sends, when no mismatch is injected,
are read back without a mismatch.  With write-follows-read off, from a fresh
state, `k >= 1` calls of `process_write_data` with a buffer of `S >= 1` bytes,
all accepted, send the `N = k * S` bytes `v, next(v), ..., next^(N-1)(v)`, and
these bytes, fed in order to `process_read_data` in any chunks, leave
`bytesRead = N = bytesWritten` and `mismatchCount = 0`.  In any mode, when a
call of `process_write_data` returns `c >= 1`, the bytes it sent are the next
`c` values from the write counter, `bytesWritten` has grown by `c`, and a
reader that has not received a byte before reads them in any chunks with
`bytesRead = c` and `mismatchCount = 0`. -/
theorem round_trip (o : Options) (st sc : Timespec) :
    (∀ v r S k : Nat, o.cl_write_after_read = 0 → o.write_size = (S : Int) →
      1 ≤ S → 1 ≤ k →
      ∃ g1 calls,
        write_calls o (List.replicate k [WriteResult.accepted S])
            { write_count_value := v, read_count_value := r, write_count := 0,
              read_count := 0, error_count := 0 } = some (g1, calls) ∧
          sent_bytes calls = List.iterate (next_count_value o.cl_ascii_range) v (k * S) ∧
          ∀ chunks : List (List Nat), chunks.flatten = sent_bytes calls →
            ∃ g2, read_chunks o st sc chunks g1 = .ok g2 ∧
              g2.read_count = ((k * S : Nat) : Int) ∧
              g2.write_count = ((k * S : Nat) : Int) ∧ g2.error_count = 0) ∧
    (∀ (gw gw' gr : Globals) (ws : List WriteResult) (c : Int)
        (calls : List WriteCall) (chunks : List (List Nat)),
      process_write_data o gw ws = some (gw', c, calls) →
      (∀ w ∈ ws, ((w.count : Nat) : Int) ≤ actual_write_size o gw) →
      1 ≤ c → gr.read_count = 0 → gr.error_count = 0 →
      chunks.flatten = sent_bytes calls →
      sent_bytes calls =
          List.iterate (next_count_value o.cl_ascii_range) gw.write_count_value c.toNat ∧
        gw'.write_count = gw.write_count + c ∧
        ∃ gr', read_chunks o st sc chunks gr = .ok gr' ∧
          gr'.read_count = c ∧ gr'.error_count = 0) := by
  constructor
  · intro v r S k hw hS hS1 hk
    obtain ⟨calls, h1, h2⟩ := write_calls_full o k
      { write_count_value := v, read_count_value := r, write_count := 0,
        read_count := 0, error_count := 0 } S hw hS hS1
    refine ⟨_, calls, h1, h2, ?_⟩
    intro chunks hch
    obtain ⟨m, hm⟩ : ∃ m, k * S = m + 1 :=
      ⟨k * S - 1, by have := Nat.mul_le_mul hk hS1; omega⟩
    rw [h2, hm] at hch
    refine ⟨_, read_chunks_first o st sc chunks _ v m rfl hch, ?_, ?_, ?_⟩
    · simp [hm]
    · simp [hm]
    · rfl
  · intro gw gw' gr ws c calls chunks hp hwf hc hr0 he0 hch
    obtain ⟨m, h1, h2, _, h4⟩ := process_write_data_sent o ws gw gw' c calls hp hwf
    subst h1
    obtain ⟨j, rfl⟩ : ∃ j, m = j + 1 := ⟨m - 1, by omega⟩
    refine ⟨by rw [h2, Int.toNat_ofNat], h4, ?_⟩
    rw [h2] at hch
    exact ⟨_, read_chunks_first o st sc chunks gr _ j hr0 hch, rfl, he0⟩

/-- C3 for two writes of three bytes each from the counter `250`, full
range. -/
theorem round_trip_witness :
    ∃ g1 calls,
      write_calls { default_options with cl_tx_bytes := 3, write_size := 3 }
          (List.replicate 2 [WriteResult.accepted 3])
          { write_count_value := 250, read_count_value := 0, write_count := 0,
            read_count := 0, error_count := 0 } = some (g1, calls) ∧
        sent_bytes calls = List.iterate (next_count_value 0) 250 (2 * 3) ∧
        ∀ chunks : List (List Nat), chunks.flatten = sent_bytes calls →
          ∃ g2, read_chunks { default_options with cl_tx_bytes := 3, write_size := 3 }
              ⟨0, 0⟩ ⟨1, 0⟩ chunks g1 = .ok g2 ∧
            g2.read_count = ((2 * 3 : Nat) : Int) ∧
            g2.write_count = ((2 * 3 : Nat) : Int) ∧ g2.error_count = 0 :=
  (round_trip { default_options with cl_tx_bytes := 3, write_size := 3 } ⟨0, 0⟩ ⟨1, 0⟩).1
    250 0 3 2 rfl rfl (by decide) (by decide)

/-! ## Theorems: resynchronisation -/

/-- With stop-on-error off, the verification loop handles one byte `b` by
counting a mismatch when `b` is neither the first byte ever received nor the
expected value, and in every case leaves `next(b)` as the expected value. -/
theorem verify_loop_step (o : Options) (st sc : Timespec) (hs : o.cl_stop_on_error = 0)
    (j b : Nat) (rest : List Nat) (g : Globals) :
    verify_loop o st sc j (b :: rest) g =
      verify_loop o st sc (j + 1) rest
        { g with
          error_count :=
            if (g.read_count = 0 ∧ j = 0) ∨ b = g.read_count_value then g.error_count
            else g.error_count + 1
          read_count_value := next_count_value o.cl_ascii_range b } := by
  by_cases h1 : g.read_count = 0 ∧ j = 0
  · simp [verify_loop, h1]
  · have h1' : (g.read_count == 0 && j == 0) = false := by simpa using h1
    by_cases h2 : b = g.read_count_value
    · subst h2
      simp [verify_loop, h1']
    · have h2' : (b != g.read_count_value) = true := by simpa using h2
      simp [verify_loop, h1', h2', hs, h1, h2]

/-- With stop-on-error off, a byte `x` that is not the first byte ever
received and differs from the expected value, followed in the same chunk by
`k` bytes that continue the sequence from `x`, costs exactly one mismatch. -/
theorem verify_loop_resync (o : Options) (st sc : Timespec)
    (hs : o.cl_stop_on_error = 0) (g : Globals) (x k i : Nat)
    (hx : x ≠ g.read_count_value) (hi : g.read_count ≠ 0 ∨ i ≠ 0) :
    verify_loop o st sc i (List.iterate (next_count_value o.cl_ascii_range) x (k + 1)) g =
      .ok
        { g with
          error_count := g.error_count + 1
          read_count_value := (next_count_value o.cl_ascii_range)^[k + 1] x } := by
  have h1 : ¬ ((g.read_count = 0 ∧ i = 0) ∨ x = g.read_count_value) := by
    rintro (⟨a, b⟩ | c)
    · rcases hi with h | h
      · exact h a
      · exact h b
    · exact hx c
  rw [List.iterate, verify_loop_step o st sc hs, if_neg h1,
    verify_loop_in_sync o st sc k (i + 1) _ (next_count_value o.cl_ascii_range x) rfl,
    Function.iterate_succ_apply]

/-- C5: with stop-on-error off, in a state in which a byte has already been
received, a byte `x` that differs from the expected value raises
`mismatchCount` by exactly one and the `k` bytes `next(x)`, `next(next(x))`,
... that follow it, in the same chunk or in later ones, raise it no further;
the expected value ends at `next^(k+1)(x)`.  After every byte `b`, matched or
not, the expected value is `next(b)`. -/
theorem resync_single_mismatch (o : Options) (st sc : Timespec) (g : Globals)
    (x k i : Nat) (chunks : List (List Nat)) (hs : o.cl_stop_on_error = 0)
    (hx : x ≠ g.read_count_value) :
    (∀ (j b : Nat) (rest : List Nat) (g' : Globals),
      verify_loop o st sc j (b :: rest) g' =
        verify_loop o st sc (j + 1) rest
          { g' with
            error_count :=
              if (g'.read_count = 0 ∧ j = 0) ∨ b = g'.read_count_value then g'.error_count
              else g'.error_count + 1
            read_count_value := next_count_value o.cl_ascii_range b }) ∧
    (g.read_count ≠ 0 ∨ i ≠ 0 →
      verify_loop o st sc i
          (List.iterate (next_count_value o.cl_ascii_range) x (k + 1)) g =
        .ok
          { g with
            error_count := g.error_count + 1
            read_count_value := (next_count_value o.cl_ascii_range)^[k + 1] x }) ∧
    (g.read_count ≠ 0 →
      chunks.flatten = List.iterate (next_count_value o.cl_ascii_range) x (k + 1) →
      read_chunks o st sc chunks g =
        .ok
          { g with
            error_count := g.error_count + 1
            read_count_value := (next_count_value o.cl_ascii_range)^[k + 1] x
            read_count := g.read_count + ((k + 1 : Nat) : Int) }) := by
  refine ⟨fun j b rest g' => verify_loop_step o st sc hs j b rest g',
    fun hi => verify_loop_resync o st sc hs g x k i hx hi, ?_⟩
  intro h0 hch
  induction chunks with
  | nil => simp [List.iterate] at hch
  | cons rb rest ih =>
    rw [List.flatten_cons] at hch
    obtain ⟨hle, h1, h2⟩ := iterate_split _ _ _ _ _ hch
    cases hrb : rb.length with
    | zero =>
      have hnil : rb = [] := List.length_eq_zero.mp hrb
      subst hnil
      simp only [read_chunks, process_read_data, List.length_nil, Nat.cast_zero, gt_iff_lt,
        lt_self_iff_false, if_false]
      exact ih (by simpa using hch)
    | succ m =>
      rw [hrb] at h1 h2 hle
      have hpos : (0 : Int) < ((m + 1 : Nat) : Int) := by omega
      have hlen : (rb.length : Int) = ((m + 1 : Nat) : Int) := by rw [hrb]
      have hread : process_read_data o st sc g (.data rb) =
          .returned
            { g with
              error_count := g.error_count + 1
              read_count_value := (next_count_value o.cl_ascii_range)^[m + 1] x
              read_count := g.read_count + ((m + 1 : Nat) : Int) } ((m + 1 : Nat) : Int) := by
        simp only [process_read_data, hlen, gt_iff_lt, hpos, if_true]
        rw [h1, verify_loop_resync o st sc hs g x m 0 hx (Or.inl h0)]
      rw [read_chunks, hread]
      simp only
      rw [read_chunks_in_sync o st sc rest _ _ (k + 1 - (m + 1)) rfl h2]
      simp only [← Function.iterate_add_apply]
      have e1 : k + 1 - (m + 1) + (m + 1) = k + 1 := by omega
      have e2 : g.read_count + ((m + 1 : Nat) : Int) + ((k + 1 - (m + 1) : Nat) : Int) =
          g.read_count + ((k + 1 : Nat) : Int) := by omega
      rw [e1, e2]

/-- C5 at the expected value `10` after five bytes, when the bytes `77, 78,
79` arrive in the chunks `[77, 78]` and `[79]`: one mismatch, and the expected
value ends at `80`. -/
theorem resync_single_mismatch_witness :
    read_chunks default_options ⟨0, 0⟩ ⟨1, 0⟩ [[77, 78], [79]]
        { write_count_value := 0, read_count_value := 10, write_count := 0,
          read_count := 5, error_count := 0 } =
      .ok
        { write_count_value := 0, read_count_value := (next_count_value 0)^[3] 77,
          write_count := 0, read_count := 5 + ((3 : Nat) : Int), error_count := 0 + 1 } :=
  (resync_single_mismatch default_options ⟨0, 0⟩ ⟨1, 0⟩
    { write_count_value := 0, read_count_value := 10, write_count := 0,
      read_count := 5, error_count := 0 } 77 2 0 [[77, 78], [79]] rfl (by decide)).2.2
    (by decide) (by decide)

/-! ## Theorems: write-follows-read -/

/-- A call of `process_write_data` whose computed attempt size is `0` issues no
`write`, returns `0` and leaves the module variables as they were. -/
theorem process_write_data_skip (o : Options) (g : Globals) (ws : List WriteResult)
    (h : actual_write_size o g = 0) :
    process_write_data o g ws = some (g, 0, []) := by
  cases ws <;> simp [process_write_data, write_loop, h]

/-- A write attempt changes no module variable but the write counter. -/
theorem write_attempt_frame (o : Options) (n : Int) (g : Globals) (rep : Int)
    (w : WriteResult) :
    (write_attempt o n g rep w).1.read_count = g.read_count ∧
      (write_attempt o n g rep w).1.read_count_value = g.read_count_value ∧
      (write_attempt o n g rep w).1.error_count = g.error_count ∧
      (write_attempt o n g rep w).1.write_count = g.write_count := by
  unfold write_attempt
  simp only
  split <;> exact ⟨rfl, rfl, rfl, rfl⟩

/-- The `write` calls that the loop of `process_write_data` issues, when it
returns: each offers a buffer of the attempt size computed on entry, there is
at least one when that size is not `0`, and none when it is. -/
theorem write_loop_calls (o : Options) (ws : List WriteResult) (g g' : Globals)
    (count rep c' : Int) (calls calls' : List WriteCall)
    (h : write_loop o ws g count rep calls = some (g', c', calls')) :
    ∃ issued, calls' = calls ++ issued ∧
      (∀ call ∈ issued, call.data.length = (actual_write_size o g).toNat) ∧
      (actual_write_size o g ≠ 0 → issued ≠ []) ∧
      (actual_write_size o g = 0 → issued = []) := by
  induction ws generalizing g count rep calls with
  | nil =>
    unfold write_loop at h
    simp only at h
    split at h
    · rename_i h0
      simp only [Option.some.injEq, Prod.mk.injEq] at h
      exact ⟨[], by rw [← h.2.2, List.append_nil], by simp,
        fun hne => absurd (by simpa using h0) hne, fun _ => rfl⟩
    · cases h
  | cons w ws ih =>
    unfold write_loop at h
    simp only at h
    split at h
    · rename_i h0
      simp only [Option.some.injEq, Prod.mk.injEq] at h
      exact ⟨[], by rw [← h.2.2, List.append_nil], by simp,
        fun hne => absurd (by simpa using h0) hne, fun _ => rfl⟩
    · rename_i h0
      have hn0 : actual_write_size o g ≠ 0 := by simpa using h0
      have hlen : (write_attempt o (actual_write_size o g) g rep w).2.2.2.data.length =
          (actual_write_size o g).toNat := by
        rw [write_attempt_data, List.length_iterate]
      split at h
      · have hf := write_attempt_frame o (actual_write_size o g) g rep w
        have hsz := actual_write_size_congr o g
          (write_attempt o (actual_write_size o g) g rep w).1 hf.1 hf.2.2.2
        obtain ⟨issued, h1, h2, _, _⟩ := ih _ _ _ _ h
        refine ⟨(write_attempt o (actual_write_size o g) g rep w).2.2.2 :: issued, ?_, ?_,
          fun _ => List.cons_ne_nil _ _, fun h00 => absurd h00 hn0⟩
        · rw [h1, List.append_assoc, List.singleton_append]
        · intro call hc
          rcases List.mem_cons.mp hc with hc | hc
          · rw [hc]; exact hlen
          · rw [← hsz]; exact h2 call hc
      · simp only [Option.some.injEq, Prod.mk.injEq] at h
        refine ⟨[(write_attempt o (actual_write_size o g) g rep w).2.2.2], h.2.2.symm, ?_,
          fun _ => List.cons_ne_nil _ _, fun h00 => absurd h00 hn0⟩
        intro call hc
        rw [List.mem_singleton.mp hc]
        exact hlen

/-- The `write` calls that a returning call of `process_write_data` has
issued: each offers a buffer of the attempt size, and there is at least one
when that size is not `0`. -/
theorem process_write_data_calls (o : Options) (ws : List WriteResult)
    (g g' : Globals) (c : Int) (calls : List WriteCall)
    (h : process_write_data o g ws = some (g', c, calls)) :
    (∀ call ∈ calls, call.data.length = (actual_write_size o g).toNat) ∧
      (actual_write_size o g ≠ 0 → calls ≠ []) := by
  unfold process_write_data at h
  split at h
  · cases h
  · rename_i g1 count calls1 hl
    simp only [Option.some.injEq, Prod.mk.injEq] at h
    obtain ⟨issued, h1, h2, h3, _⟩ := write_loop_calls o ws g g1 _ _ _ _ _ hl
    rw [List.nil_append] at h1
    rw [← h.2.2, h1]
    exact ⟨h2, h3⟩

/-- When the attempt size is not `0` and the first `write` ends the loop (it
does not fail, or a fixed chunk size is configured), `process_write_data`
returns after that one call, which offers the sequence of the attempt size
from the write counter. -/
theorem process_write_data_once (o : Options) (g : Globals) (w : WriteResult)
    (rest : List WriteResult) (hn : actual_write_size o g ≠ 0)
    (hend : o.cl_tx_bytes ≠ 0 ∨ ∃ c, w = WriteResult.accepted c) :
    ∃ g' c,
      process_write_data o g (w :: rest) =
        some (g', c,
          [{ data := List.iterate (next_count_value o.cl_ascii_range) g.write_count_value
               (actual_write_size o g).toNat
             result := w }]) := by
  have h0 : (actual_write_size o g == 0) = false := by simpa using hn
  have hrep : w.repeat_after (if o.cl_tx_bytes == 0 then 1 else 0) = 0 := by
    rcases hend with h | ⟨c, rfl⟩
    · have : (o.cl_tx_bytes == 0) = false := by simpa using h
      cases w <;> simp [WriteResult.repeat_after, this]
    · rfl
  have hr : (write_attempt o (actual_write_size o g) g
      (if o.cl_tx_bytes == 0 then 1 else 0) w).2.2.1 = 0 := by
    simp only [write_attempt]
    exact hrep
  have hcall : (write_attempt o (actual_write_size o g) g
      (if o.cl_tx_bytes == 0 then 1 else 0) w).2.2.2 =
      { data := List.iterate (next_count_value o.cl_ascii_range) g.write_count_value
          (actual_write_size o g).toNat
        result := w } := by
    simp [write_attempt, fill_write_data_eq]
  refine ⟨{ (write_attempt o (actual_write_size o g) g
        (if o.cl_tx_bytes == 0 then 1 else 0) w).1 with
      write_count := (write_attempt o (actual_write_size o g) g
          (if o.cl_tx_bytes == 0 then 1 else 0) w).1.write_count +
        (0 + (write_attempt o (actual_write_size o g) g
          (if o.cl_tx_bytes == 0 then 1 else 0) w).2.1) },
    0 + (write_attempt o (actual_write_size o g) g
      (if o.cl_tx_bytes == 0 then 1 else 0) w).2.1, ?_⟩
  simp only [process_write_data, write_loop, h0, Bool.false_eq_true, if_false, hr,
    bne_self_eq_false, hcall, List.nil_append]

/-- C6: for a chunk size `S >= 1`, with write-follows-read enabled the attempt
size is `min(S, max(0, R - W))`, so it is `min(S, R - W)` for `R > W` and it
never exceeds the chunk size `S`.  For `R > W` the `write` that
`process_write_data` issues offers a buffer of exactly that length, and every
`write` of a returning call does; for `R <= W` no `write` is issued and the
module variables, `bytesWritten` and the write counter among them, are
unchanged.  With write-follows-read disabled the attempt size is `S`, and
that is the length of the buffer of every `write` issued. -/
theorem write_follows_read_size (o : Options) (g : Globals) (rep : Int)
    (w : WriteResult) (ws : List WriteResult) (hS : 1 ≤ o.write_size) :
    (o.cl_write_after_read ≠ 0 →
      actual_write_size o g =
          min o.write_size (max 0 (g.read_count - g.write_count)) ∧
        (g.read_count > g.write_count →
          actual_write_size o g = min o.write_size (g.read_count - g.write_count)) ∧
        actual_write_size o g ≤ o.write_size ∧
        (write_attempt o (actual_write_size o g) g rep w).2.2.2.data.length =
          (min o.write_size (max 0 (g.read_count - g.write_count))).toNat ∧
        (g.read_count ≤ g.write_count →
          actual_write_size o g = 0 ∧ process_write_data o g ws = some (g, 0, [])) ∧
        (g.read_count > g.write_count →
          (o.cl_tx_bytes ≠ 0 ∨ ∃ c, w = WriteResult.accepted c) →
          ∃ g' c,
            process_write_data o g (w :: ws) =
              some (g', c,
                [{ data := List.iterate (next_count_value o.cl_ascii_range)
                     g.write_count_value
                     (min o.write_size (g.read_count - g.write_count)).toNat
                   result := w }])) ∧
        (∀ (g' : Globals) (c : Int) (calls : List WriteCall),
          process_write_data o g ws = some (g', c, calls) →
          (∀ call ∈ calls, call.data.length =
            (min o.write_size (max 0 (g.read_count - g.write_count))).toNat) ∧
          (g.read_count > g.write_count → calls ≠ []))) ∧
    (o.cl_write_after_read = 0 →
      actual_write_size o g = o.write_size ∧
        ((o.cl_tx_bytes ≠ 0 ∨ ∃ c, w = WriteResult.accepted c) →
          ∃ g' c,
            process_write_data o g (w :: ws) =
              some (g', c,
                [{ data := List.iterate (next_count_value o.cl_ascii_range)
                     g.write_count_value o.write_size.toNat
                   result := w }])) ∧
        (∀ (g' : Globals) (c : Int) (calls : List WriteCall),
          process_write_data o g ws = some (g', c, calls) →
          (∀ call ∈ calls, call.data.length = o.write_size.toNat) ∧ calls ≠ [])) := by
  constructor
  · intro hw
    have hb : (o.cl_write_after_read == 0) = false := by simpa using hw
    have e : actual_write_size o g =
        min o.write_size (max 0 (g.read_count - g.write_count)) := by
      simp only [actual_write_size, hb, Bool.false_eq_true, if_false]
      split <;> split <;> omega
    refine ⟨e, ?_, ?_, ?_, ?_, ?_, ?_⟩
    · intro h; rw [e]; omega
    · rw [e]; omega
    · rw [write_attempt_data, List.length_iterate, e]
    · intro h
      have e0 : actual_write_size o g = 0 := by
        rw [e]; omega
      exact ⟨e0, process_write_data_skip o g ws e0⟩
    · intro h hend
      have e1 : actual_write_size o g = min o.write_size (g.read_count - g.write_count) := by
        rw [e]; omega
      have hn : actual_write_size o g ≠ 0 := by rw [e1]; omega
      obtain ⟨g', c, hp⟩ := process_write_data_once o g w ws hn hend
      rw [e1] at hp
      exact ⟨g', c, hp⟩
    · intro g' c calls hp
      have hc := process_write_data_calls o ws g g' c calls hp
      rw [e] at hc
      exact ⟨hc.1, fun h => hc.2 (by omega)⟩
  · intro hw
    have e : actual_write_size o g = o.write_size := by
      simp [actual_write_size, hw]
    refine ⟨e, ?_, ?_⟩
    · intro hend
      obtain ⟨g', c, hp⟩ := process_write_data_once o g w ws (by rw [e]; omega) hend
      rw [e] at hp
      exact ⟨g', c, hp⟩
    · intro g' c calls hp
      have hc := process_write_data_calls o ws g g' c calls hp
      rw [e] at hc
      exact ⟨hc.1, hc.2 (by omega)⟩

/-- C6 under `-K -w 8` with `R = 5` and `W = 2`: the `write` issued offers
`min(8, 3) = 3` bytes. -/
theorem write_follows_read_size_witness :
    ∃ g' c,
      process_write_data
          { default_options with cl_write_after_read := 1, cl_tx_bytes := 8, write_size := 8 }
          { write_count_value := 2, read_count_value := 5, write_count := 2,
            read_count := 5, error_count := 0 }
          [WriteResult.accepted 3] =
        some (g', c,
          [{ data := List.iterate (next_count_value 0) 2 (min 8 (5 - 2) : Int).toNat
             result := WriteResult.accepted 3 }]) :=
  ((write_follows_read_size
    { default_options with cl_write_after_read := 1, cl_tx_bytes := 8, write_size := 8 }
    { write_count_value := 2, read_count_value := 5, write_count := 2,
      read_count := 5, error_count := 0 } 0 (WriteResult.accepted 3) []
    (by decide)).1 (by decide)).2.2.2.2.2.1 (by decide) (Or.inl (by decide))

/-! ## Theorems: stall detection -/

/-- For timestamps as the clock gives them, less than `2^31` ms apart,
`diff_ms` is the elapsed time in whole milliseconds, rounded down. -/
theorem diff_ms_eq (t1 t2 : Timespec) (h : within_int_range t1 t2) :
    diff_ms t1 t2 = elapsed_ns t1 t2 / 1000000 := by
  obtain ⟨a1, a2, b1, b2, c1, c2⟩ := h
  unfold elapsed_ns at c1 c2 ⊢
  unfold diff_ms to_int
  simp only
  split
  · rw [Int.tdiv_eq_ediv (by omega) (by omega)]
    omega
  · rw [Int.tdiv_eq_ediv (by omega) (by omega)]
    omega

/-- For timestamps as the clock gives them, less than `2^31` ms apart,
`diff_ms` exceeds `m` exactly when at least `m + 1` milliseconds have
elapsed. -/
theorem diff_ms_gt (t1 t2 : Timespec) (m : Int) (h : within_int_range t1 t2) :
    diff_ms t1 t2 > m ↔ (m + 1) * 1000000 ≤ elapsed_ns t1 t2 := by
  rw [diff_ms_eq t1 t2 h]
  constructor <;> intro h1 <;> omega

/-- The tx-time check leaves the recorded stall flags alone. -/
theorem tx_time_check_stall (st : Timespec) (s : LoopState) (c : Timespec)
    (log : IterLog) : (tx_time_check st s c log).2.stall = log.stall := by
  unfold tx_time_check
  split
  · split <;> rfl
  · rfl

/-- The rx-time check leaves the recorded stall flags alone. -/
theorem rx_time_check_stall (st : Timespec) (s : LoopState) (c : Timespec)
    (log : IterLog) : (rx_time_check st s c log).2.stall = log.stall := by
  unfold rx_time_check
  split
  · split <;> rfl
  · rfl

/-- The stall flags that the periodic checks record are those of the stall
check: the later checks leave them alone. -/
theorem periodic_checks_stall (o : Options) (st : Timespec) (s s' : LoopState)
    (e : IterInput) (log log' : IterLog)
    (h : periodic_checks o st s e log = .fallthrough s' log') :
    log'.stall = (stall_check s e.current log).2.stall := by
  unfold periodic_checks at h
  simp only at h
  split at h
  · cases h
  · rename_i r2 hr2
    simp only [Flow.fallthrough.injEq] at h
    have h2 : r2.2.stall = (stall_check s e.current log).2.stall := by
      unfold stats_check at hr2
      split at hr2
      · split at hr2
        · split at hr2
          · cases hr2
          · cases hr2; rfl
        · cases hr2; rfl
      · cases hr2; rfl
    rw [← h.2, ← h2, rx_time_check_stall, tx_time_check_stall]

/-- The stall flags in terms of `diff_ms`: the rx-stall flag is set exactly
when reading is enabled, `diff_ms` since the last-read timestamp exceeds 2000,
and it is not the case that writing is disabled with `bytesWritten` non-zero
and equal to `bytesRead`; the tx-stall flag is set exactly when writing is
enabled and `diff_ms` since the last-write timestamp exceeds 2000.  The flags
are recorded when `diff_ms` since the last report exceeds 1000.  Once the
tx-time cap has disabled writing and `bytesWritten = bytesRead` is non-zero,
no rx-stall is flagged at any later time. -/
theorem stall_flags_diff_ms (o : Options) (st : Timespec) (s : LoopState)
    (e : IterInput) (log : IterLog) :
    ((stall_flags s e.current).1 = true ↔
      (s.runtime_no_rx = 0 ∧ diff_ms e.current s.last_read > 2000 ∧
        ¬ (s.runtime_no_tx ≠ 0 ∧ s.g.write_count ≠ 0 ∧
            s.g.write_count = s.g.read_count))) ∧
    ((stall_flags s e.current).2 = true ↔
      (s.runtime_no_tx = 0 ∧ diff_ms e.current s.last_write > 2000)) ∧
    (diff_ms e.current s.last_timeout > 1000 →
      (stall_check s e.current log).2.stall = some (stall_flags s e.current) ∧
      ∀ s' log', periodic_checks o st s e log = .fallthrough s' log' →
        log'.stall = some (stall_flags s e.current)) ∧
    (s.cl_tx_time ≠ 0 → e.current.tv_sec - st.tv_sec ≥ s.cl_tx_time →
      (tx_time_check st s e.current log).1.runtime_no_tx = 1 ∧
      ∀ (s' : LoopState) (later : Timespec),
        s'.runtime_no_tx = (tx_time_check st s e.current log).1.runtime_no_tx →
        s'.g.write_count = s'.g.read_count → s'.g.write_count ≠ 0 →
        (stall_flags s' later).1 = false) := by
  refine ⟨?_, ?_, ?_, ?_⟩
  · simp only [stall_flags]
    by_cases hsup : s.runtime_no_tx ≠ 0 ∧ s.g.write_count ≠ 0 ∧
        s.g.write_count = s.g.read_count
    · have : (s.runtime_no_tx != 0 && s.g.write_count != 0 &&
          s.g.write_count == s.g.read_count) = true := by
        simp only [Bool.and_eq_true, bne_iff_ne, beq_iff_eq]
        exact ⟨⟨hsup.1, hsup.2.1⟩, hsup.2.2⟩
      rw [this]
      simp only [if_true, Bool.false_eq_true, false_iff]
      rintro ⟨_, _, hn⟩
      exact hn hsup
    · have : (s.runtime_no_tx != 0 && s.g.write_count != 0 &&
          s.g.write_count == s.g.read_count) = false := by
        rw [Bool.eq_false_iff]
        simp only [ne_eq, Bool.and_eq_true, bne_iff_ne, beq_iff_eq]
        rintro ⟨⟨a, b⟩, c⟩
        exact hsup ⟨a, b, c⟩
      rw [this]
      simp only [Bool.false_eq_true, if_false, Bool.and_eq_true, beq_iff_eq,
        decide_eq_true_eq]
      exact ⟨fun h => ⟨h.1, h.2, hsup⟩, fun h => ⟨h.1, h.2.1⟩⟩
  · simp [stall_flags]
  · intro h
    have h1 : (stall_check s e.current log).2.stall = some (stall_flags s e.current) := by
      simp [stall_check, h]
    exact ⟨h1, fun s' log' hp => by rw [periodic_checks_stall o st s s' e log log' hp, h1]⟩
  · intro h1 h2
    have ht : (tx_time_check st s e.current log).1.runtime_no_tx = 1 := by
      have h1' : (s.cl_tx_time != 0) = true := by simpa using h1
      simp [tx_time_check, h1', h2]
    refine ⟨ht, ?_⟩
    intro s' later hs' hwr hw0
    rw [ht] at hs'
    simp [stall_flags, hs', hwr.symm, hw0]

/-- C7, as stated, fails: with both directions enabled and nothing read or
written since the start at `0 s`, the stall check at `2.0005 s` runs, more
than 2000 ms have elapsed since the last-read and the last-write timestamps,
and neither stall flag is set. -/
theorem stall_missed_within_millisecond :
    (initial_state default_options 0 0 ⟨0, 0⟩).runtime_no_rx = 0 ∧
    (initial_state default_options 0 0 ⟨0, 0⟩).runtime_no_tx = 0 ∧
    elapsed_ns ⟨2, 500000⟩ (initial_state default_options 0 0 ⟨0, 0⟩).last_read >
      2000 * 1000000 ∧
    elapsed_ns ⟨2, 500000⟩ (initial_state default_options 0 0 ⟨0, 0⟩).last_write >
      2000 * 1000000 ∧
    (stall_check (initial_state default_options 0 0 ⟨0, 0⟩) ⟨2, 500000⟩
        IterLog.empty).2.stall = some (false, false) := by
  decide

/-- C7, amended: for timestamps less than `2^31` ms apart, the stall check
runs exactly when at least 1001 ms have elapsed since the last report (the
elapsed time is counted in whole milliseconds, rounded down); the rx-stall
flag is then set if and only if reading is enabled, at least 2001 ms have
elapsed since the last-read timestamp, and it is not the case that writing is
disabled with `bytesWritten` non-zero and equal to `bytesRead`; the tx-stall
flag is set if and only if writing is enabled and at least 2001 ms have
elapsed since the last-write timestamp.  Once the tx-time cap has disabled
writing and `bytesWritten = bytesRead` is non-zero, no rx-stall is flagged at
any later time. -/
theorem stall_detection (o : Options) (st : Timespec) (s : LoopState)
    (e : IterInput) (log : IterLog) :
    (within_int_range e.current s.last_read →
      ((stall_flags s e.current).1 = true ↔
        (s.runtime_no_rx = 0 ∧ 2001 * 1000000 ≤ elapsed_ns e.current s.last_read ∧
          ¬ (s.runtime_no_tx ≠ 0 ∧ s.g.write_count ≠ 0 ∧
              s.g.write_count = s.g.read_count)))) ∧
    (within_int_range e.current s.last_write →
      ((stall_flags s e.current).2 = true ↔
        (s.runtime_no_tx = 0 ∧ 2001 * 1000000 ≤ elapsed_ns e.current s.last_write))) ∧
    (within_int_range e.current s.last_timeout →
      (1001 * 1000000 ≤ elapsed_ns e.current s.last_timeout →
        (stall_check s e.current log).2.stall = some (stall_flags s e.current) ∧
        ∀ s' log', periodic_checks o st s e log = .fallthrough s' log' →
          log'.stall = some (stall_flags s e.current)) ∧
      (elapsed_ns e.current s.last_timeout < 1001 * 1000000 →
        stall_check s e.current log = (s, log))) ∧
    (s.cl_tx_time ≠ 0 → e.current.tv_sec - st.tv_sec ≥ s.cl_tx_time →
      (tx_time_check st s e.current log).1.runtime_no_tx = 1 ∧
      ∀ (s' : LoopState) (later : Timespec),
        s'.runtime_no_tx = (tx_time_check st s e.current log).1.runtime_no_tx →
        s'.g.write_count = s'.g.read_count → s'.g.write_count ≠ 0 →
        (stall_flags s' later).1 = false) := by
  obtain ⟨h1, h2, h3, h4⟩ := stall_flags_diff_ms o st s e log
  refine ⟨?_, ?_, ?_, h4⟩
  · intro hr
    rw [h1, diff_ms_gt _ _ 2000 hr]
    norm_num
  · intro hw
    rw [h2, diff_ms_gt _ _ 2000 hw]
    norm_num
  · intro ht
    constructor
    · intro hge
      exact h3 ((diff_ms_gt _ _ 1000 ht).mpr (by norm_num; exact hge))
    · intro hlt
      have hn : ¬ diff_ms e.current s.last_timeout > 1000 := by
        rw [diff_ms_gt _ _ 1000 ht]
        norm_num
        exact hlt
      simp [stall_check, hn]

/-- The amended C7 at `2.001 s` after a start at `0 s` with nothing read: the
rx-stall flag is set. -/
theorem stall_detection_witness :
    (stall_flags (initial_state default_options 0 0 ⟨0, 0⟩)
      (idle_input ⟨2, 1000000⟩).current).1 = true :=
  ((stall_detection default_options ⟨0, 0⟩ (initial_state default_options 0 0 ⟨0, 0⟩)
      (idle_input ⟨2, 1000000⟩) IterLog.empty).1 (by decide)).mpr (by decide)

/-! ## Theorems: write retry -/

/-- While `repeat` is set, a `write` that fails leaves the loop of
`process_write_data` where it was: the loop runs again, so a list of failures
never lets the call return. -/
theorem write_loop_errors (o : Options) (g : Globals) (errno : Int) (n : Nat)
    (count rep : Int) (calls : List WriteCall) (hrep : rep ≠ 0)
    (hsz : 1 ≤ actual_write_size o g) :
    write_loop o (List.replicate n (WriteResult.error errno)) g count rep calls = none := by
  have hne : (actual_write_size o g == 0) = false := by
    simp only [beq_eq_false_iff_ne, ne_eq]; omega
  have hrep' : (rep != 0) = true := by simpa using hrep
  induction n generalizing count calls with
  | zero => simp [write_loop, hne]
  | succ n ih =>
    have ha := write_attempt_eq o (actual_write_size o g) g rep (WriteResult.error errno)
      (by simp only [WriteResult.count, Nat.cast_zero]; omega)
    simp only [WriteResult.count, Function.iterate_zero, id_eq, Nat.cast_zero,
      WriteResult.repeat_after] at ha
    rw [List.replicate_succ, write_loop]
    simp only [hne, Bool.false_eq_true, if_false, ha, hrep', if_true]
    exact ih _ _

/-- C8 fails on the code: without a fixed chunk size, a `write` that reports
would-block does not end the loop of `process_write_data`.  After any number
of would-block answers the call has not returned, and when a would-block
answer is followed by a `write` that accepts the 1024 bytes the call returns
1024, having issued two `write` calls. -/
theorem write_retry_after_would_block (g : Globals) (n : Nat) :
    process_write_data default_options g
        (List.replicate n (WriteResult.error EAGAIN)) = none ∧
      process_write_data default_options g
          [WriteResult.error EAGAIN, WriteResult.accepted 1024] =
        some
          ({ g with
              write_count_value := (next_count_value 0)^[1024] g.write_count_value
              write_count := g.write_count + 1024 },
            1024,
            [{ data := List.iterate (next_count_value 0) g.write_count_value 1024
               result := WriteResult.error EAGAIN },
             { data := List.iterate (next_count_value 0) g.write_count_value 1024
               result := WriteResult.accepted 1024 }]) := by
  have hsz : actual_write_size default_options g = 1024 := rfl
  constructor
  · simp only [process_write_data]
    rw [write_loop_errors default_options g EAGAIN n 0 _ [] (by decide) (by rw [hsz]; decide)]
  · have ha := write_attempt_eq default_options 1024 g 1 (WriteResult.error EAGAIN)
      (by decide)
    have hb := write_attempt_eq default_options 1024 g 1 (WriteResult.accepted 1024)
      (by decide)
    have hasc : default_options.cl_ascii_range = 0 := rfl
    have hnat : Int.toNat 1024 = 1024 := rfl
    simp only [WriteResult.count, Function.iterate_zero, id_eq, Nat.cast_zero, hasc, hnat,
      WriteResult.repeat_after] at ha
    simp only [WriteResult.count, hasc, hnat, Nat.cast_ofNat, WriteResult.repeat_after] at hb
    have hrep : (if default_options.cl_tx_bytes == 0 then (1 : Int) else 0) = 1 := rfl
    have hsz2 : ∀ g' : Globals, actual_write_size default_options g' = 1024 := fun _ => rfl
    have h1024 : ((1024 : Int) == 0) = false := by decide
    simp only [process_write_data, hrep]
    rw [write_loop]
    simp only [hsz2, h1024, Bool.false_eq_true, if_false, ha]
    rw [write_loop]
    simp only [hsz2, h1024, Bool.false_eq_true, if_false, hb]
    simp only [bne_self_eq_false, Bool.false_eq_true, if_false, zero_add, List.nil_append,
      List.cons_append, bne_iff_ne, ne_eq, one_ne_zero, not_false_eq_true, if_true]

/-! ## Theorems: read errors -/

/-- C9, as stated, fails: with no option given, an iteration in which the
channel is readable and `read` fails with `EIO` neither stops the process nor
ends the loop.  The state is as before but for the last-read timestamp, and
the next iteration reads a byte. -/
theorem read_error_is_not_fatal :
    iteration default_options ⟨0, 0⟩ (initial_state default_options 0 0 ⟨0, 0⟩)
        { idle_input ⟨0, 500000000⟩ with
          retval := 1, revents_pollin := true, read := ReadResult.error EIO } =
      .continued
        { initial_state default_options 0 0 ⟨0, 0⟩ with last_read := ⟨0, 500000000⟩ }
        { IterLog.empty with read_returned := some (-1) } ∧
    run_loop default_options ⟨0, 0⟩
        [{ idle_input ⟨0, 500000000⟩ with
            retval := 1, revents_pollin := true, read := ReadResult.error EIO },
         { idle_input ⟨0, 600000000⟩ with
            retval := 1, revents_pollin := true, read := ReadResult.data [7] }]
        (initial_state default_options 0 0 ⟨0, 0⟩) =
      .running
        { initial_state default_options 0 0 ⟨0, 0⟩ with
          g := { write_count_value := 0, read_count_value := 8, write_count := 0,
                 read_count := 1, error_count := 0 }
          last_read := ⟨0, 600000000⟩ } := by
  constructor <;> decide

/-- The loop of `process_write_data` changes no variable of the read path. -/
theorem write_loop_frame (o : Options) (ws : List WriteResult) (g g' : Globals)
    (count rep c' : Int) (calls calls' : List WriteCall)
    (h : write_loop o ws g count rep calls = some (g', c', calls')) :
    g'.read_count = g.read_count ∧ g'.read_count_value = g.read_count_value ∧
      g'.error_count = g.error_count := by
  induction ws generalizing g count rep calls with
  | nil =>
    unfold write_loop at h
    simp only at h
    split at h
    · simp only [Option.some.injEq, Prod.mk.injEq] at h
      rw [← h.1]; exact ⟨rfl, rfl, rfl⟩
    · cases h
  | cons w ws ih =>
    unfold write_loop at h
    simp only at h
    split at h
    · simp only [Option.some.injEq, Prod.mk.injEq] at h
      rw [← h.1]; exact ⟨rfl, rfl, rfl⟩
    · have hf := write_attempt_frame o (actual_write_size o g) g rep w
      split at h
      · have := ih _ _ _ _ h
        exact ⟨this.1.trans hf.1, this.2.1.trans hf.2.1, this.2.2.trans hf.2.2.1⟩
      · simp only [Option.some.injEq, Prod.mk.injEq] at h
        rw [← h.1]; exact ⟨hf.1, hf.2.1, hf.2.2.1⟩

/-- `process_write_data` changes no variable of the read path. -/
theorem process_write_data_frame (o : Options) (ws : List WriteResult)
    (g g' : Globals) (c : Int) (calls : List WriteCall)
    (h : process_write_data o g ws = some (g', c, calls)) :
    g'.read_count = g.read_count ∧ g'.read_count_value = g.read_count_value ∧
      g'.error_count = g.error_count := by
  unfold process_write_data at h
  split at h
  · cases h
  · rename_i g1 count calls1 hl
    simp only [Option.some.injEq, Prod.mk.injEq] at h
    have := write_loop_frame o ws g g1 _ _ _ _ _ hl
    rw [← h.1]; exact this

/-- The write part of an iteration either has not returned from
`process_write_data`, or falls through with the variables of the read path
unchanged. -/
theorem write_part_result (o : Options) (s : LoopState) (e : IterInput)
    (log : IterLog) :
    (write_part o s e log = .writing ∧ process_write_data o s.g e.writes = none) ∨
      ∃ s' log', write_part o s e log = .fallthrough s' log' ∧
        s'.g.read_count = s.g.read_count ∧
        s'.g.read_count_value = s.g.read_count_value ∧
        s'.g.error_count = s.g.error_count := by
  have hcall : (write_call o s e log = .writing ∧
        process_write_data o s.g e.writes = none) ∨
      ∃ s' log', write_call o s e log = .fallthrough s' log' ∧
        s'.g.read_count = s.g.read_count ∧
        s'.g.read_count_value = s.g.read_count_value ∧
        s'.g.error_count = s.g.error_count := by
    unfold write_call
    cases hp : process_write_data o s.g e.writes with
    | none => exact Or.inl ⟨rfl, rfl⟩
    | some r =>
      obtain ⟨g, c, calls⟩ := r
      exact Or.inr ⟨_, _, rfl, process_write_data_frame o _ _ _ _ _ hp⟩
  have hsame : ∃ s' log', Flow.fallthrough s log = .fallthrough s' log' ∧
        s'.g.read_count = s.g.read_count ∧
        s'.g.read_count_value = s.g.read_count_value ∧
        s'.g.error_count = s.g.error_count := ⟨s, log, rfl, rfl, rfl, rfl⟩
  unfold write_part
  split
  · split
    · split
      · exact hcall
      · exact Or.inr hsame
    · exact hcall
  · exact Or.inr hsame

/-- The periodic checks either stop on the division by zero of the
statistics, or fall through with the module variables unchanged. -/
theorem periodic_checks_result (o : Options) (st : Timespec) (s : LoopState)
    (e : IterInput) (log : IterLog) :
    (periodic_checks o st s e log = .stopped Stop.fault ∧
        diff_ms e.stats_clock st = 0) ∨
      ∃ s' log', periodic_checks o st s e log = .fallthrough s' log' ∧ s'.g = s.g := by
  have h1 : (stall_check s e.current log).1.g = s.g := by
    unfold stall_check
    split
    · simp only
      split <;> rfl
    · rfl
  have htx : ∀ (x : LoopState) (l : IterLog), (tx_time_check st x e.current l).1.g = x.g := by
    intro x l
    unfold tx_time_check
    split
    · split <;> rfl
    · rfl
  have hrx : ∀ (x : LoopState) (l : IterLog), (rx_time_check st x e.current l).1.g = x.g := by
    intro x l
    unfold rx_time_check
    split
    · split <;> rfl
    · rfl
  unfold periodic_checks
  simp only
  cases hst : stats_check o st (stall_check s e.current log).1 e
      (stall_check s e.current log).2 with
  | none =>
    left
    refine ⟨rfl, ?_⟩
    unfold stats_check at hst
    split at hst
    · split at hst
      · split at hst
        · rename_i hd
          unfold dump_serial_port_stats at hd
          simp only at hd
          split at hd
          · rename_i h0
            simpa using h0
          · cases hd
        · cases hst
      · cases hst
    · cases hst
  | some r2 =>
    right
    refine ⟨_, _, rfl, ?_⟩
    rw [hrx, htx]
    have : r2.1.g = (stall_check s e.current log).1.g := by
      unfold stats_check at hst
      split at hst
      · split at hst
        · split at hst
          · cases hst
          · cases hst; rfl
        · cases hst; rfl
      · cases hst; rfl
    rw [this, h1]

/-- When `read` fails, the read part of an iteration falls through or takes
the `continue`, with the module variables unchanged. -/
theorem read_part_error (o : Options) (st : Timespec) (s : LoopState)
    (e : IterInput) (errno : Int) (hr : e.read = ReadResult.error errno) :
    ∃ s1 log, (read_part o st s e = .fallthrough s1 log ∨
        read_part o st s e = .continue_ s1 log) ∧ s1.g = s.g := by
  unfold read_part
  simp only [hr, process_read_data]
  split
  · split
    · exact ⟨_, _, Or.inr rfl, rfl⟩
    · split
      · split
        · exact ⟨_, _, Or.inl rfl, rfl⟩
        · exact ⟨_, _, Or.inl rfl, rfl⟩
      · exact ⟨_, _, Or.inl rfl, rfl⟩
  · split
    · exact ⟨_, _, Or.inr rfl, rfl⟩
    · exact ⟨_, _, Or.inl rfl, rfl⟩

/-- When `read` fails, the transfer part of an iteration either has not
returned from `process_write_data`, or falls through or takes the `continue`
with the variables of the read path unchanged. -/
theorem transfer_part_error (o : Options) (st : Timespec) (s : LoopState)
    (e : IterInput) (errno : Int) (hr : e.read = ReadResult.error errno) :
    (transfer_part o st s e = .writing ∧ process_write_data o s.g e.writes = none) ∨
      ∃ s1 log1, (transfer_part o st s e = .fallthrough s1 log1 ∨
          transfer_part o st s e = .continue_ s1 log1) ∧
        s1.g.read_count = s.g.read_count ∧
        s1.g.read_count_value = s.g.read_count_value ∧
        s1.g.error_count = s.g.error_count := by
  unfold transfer_part
  split
  · exact Or.inr ⟨s, _, Or.inl rfl, rfl, rfl, rfl⟩
  · split
    · obtain ⟨s1, log1, hrp, hg⟩ := read_part_error o st s e errno hr
      rcases hrp with hrp | hrp
      · rw [hrp]
        simp only
        rcases write_part_result o s1 e log1 with ⟨hw, hn⟩ | ⟨s2, log2, hw, a, b, c⟩
        · exact Or.inl ⟨hw, by rw [← hg]; exact hn⟩
        · exact Or.inr ⟨s2, log2, Or.inl hw, by rw [a, hg], by rw [b, hg], by rw [c, hg]⟩
      · rw [hrp]
        exact Or.inr ⟨s1, log1, Or.inr rfl, by rw [hg], by rw [hg], by rw [hg]⟩
    · exact Or.inr ⟨s, _, Or.inl rfl, rfl, rfl, rfl⟩

/-- The periodic checks stop the process only when the statistics are
enabled. -/
theorem periodic_checks_fault (o : Options) (st : Timespec) (s : LoopState)
    (e : IterInput) (log : IterLog) (t : Stop)
    (h : periodic_checks o st s e log = .stopped t) : o.cl_stats ≠ 0 := by
  intro h0
  have h0' : (o.cl_stats != 0) = false := by simp [h0]
  unfold periodic_checks at h
  simp only [stats_check, h0', Bool.false_eq_true, if_false] at h
  cases h

/-- The loop of `process_write_data` returns when one of its `write` calls is
accepted, and also after its first `write` when `repeat` is not set. -/
theorem write_loop_returns (o : Options) (ws : List WriteResult) (g : Globals)
    (count rep : Int) (calls : List WriteCall)
    (h : (∃ c, WriteResult.accepted c ∈ ws) ∨ (rep = 0 ∧ ws ≠ [])) :
    ∃ r, write_loop o ws g count rep calls = some r := by
  induction ws generalizing g count calls with
  | nil =>
    rcases h with ⟨c, hc⟩ | ⟨_, hne⟩
    · cases hc
    · exact absurd rfl hne
  | cons w ws ih =>
    unfold write_loop
    simp only
    split
    · exact ⟨_, rfl⟩
    · split
      · rename_i hrep
        have hr : (write_attempt o (actual_write_size o g) g rep w).2.2.1 =
            w.repeat_after rep := rfl
        rw [hr] at hrep ⊢
        cases w with
        | accepted c => simp [WriteResult.repeat_after] at hrep
        | error errno =>
          simp only [WriteResult.repeat_after] at hrep ⊢
          have hrep0 : rep ≠ 0 := by simpa using hrep
          refine ih _ _ _ ?_
          rcases h with ⟨c, hc⟩ | ⟨h0, _⟩
          · rcases List.mem_cons.mp hc with hc | hc
            · cases hc
            · exact Or.inl ⟨c, hc⟩
          · exact absurd h0 hrep0
      · exact ⟨_, rfl⟩

/-- A call of `process_write_data` returns when one of its `write` calls is
accepted, and also after its first `write` when a fixed chunk size is
configured. -/
theorem process_write_data_returns (o : Options) (g : Globals) (ws : List WriteResult)
    (h : (∃ c, WriteResult.accepted c ∈ ws) ∨ (o.cl_tx_bytes ≠ 0 ∧ ws ≠ [])) :
    process_write_data o g ws ≠ none := by
  have h' : (∃ c, WriteResult.accepted c ∈ ws) ∨
      ((if o.cl_tx_bytes == 0 then (1 : Int) else 0) = 0 ∧ ws ≠ []) := by
    rcases h with h | ⟨h1, h2⟩
    · exact Or.inl h
    · exact Or.inr ⟨by simp [h1], h2⟩
  obtain ⟨r, hr⟩ := write_loop_returns o ws g 0 _ [] h'
  unfold process_write_data
  rw [hr]
  obtain ⟨g1, c, calls⟩ := r
  simp

/-- C9, amended: in every iteration in which `read` fails, with would-block or
with any other error alike, `process_read_data` returns `-1` with the module
variables unchanged and the iteration does not call `exit`; whenever it is
back at the loop condition, `bytesRead`, `mismatchCount` and the expected
counter are as before.  When moreover one of the `write` answers of the
iteration is an acceptance (or a fixed chunk size is configured), and the
statistics are off or their clock is not within the first millisecond of the
run, the iteration is back at the loop condition and the loop goes on with
the next iteration. -/
theorem read_failure_continues (o : Options) (st : Timespec) (s : LoopState)
    (e : IterInput) (errno : Int) (es : List IterInput)
    (hr : e.read = ReadResult.error errno) :
    process_read_data o st e.stats_clock s.g e.read = .returned s.g (-1) ∧
    (∀ status, iteration o st s e ≠ .stopped (Stop.exit status)) ∧
    (∀ s' log, iteration o st s e = .continued s' log →
      s'.g.read_count = s.g.read_count ∧ s'.g.error_count = s.g.error_count ∧
        s'.g.read_count_value = s.g.read_count_value) ∧
    (process_write_data o s.g e.writes ≠ none → diff_ms e.stats_clock st ≠ 0 →
      ∃ s' log, iteration o st s e = .continued s' log) ∧
    (((∃ c, WriteResult.accepted c ∈ e.writes) ∨ (o.cl_tx_bytes ≠ 0 ∧ e.writes ≠ [])) →
      (o.cl_stats = 0 ∨ diff_ms e.stats_clock st ≠ 0) →
      ∃ s' log, iteration o st s e = .continued s' log ∧
        s'.g.read_count = s.g.read_count ∧ s'.g.error_count = s.g.error_count ∧
        s'.g.read_count_value = s.g.read_count_value ∧
        (loop_condition s = true →
          run_loop o st (e :: es) s = run_loop o st es s')) := by
  have key : (iteration o st s e = .writing ∧ process_write_data o s.g e.writes = none) ∨
      (iteration o st s e = .stopped Stop.fault ∧ diff_ms e.stats_clock st = 0 ∧
        o.cl_stats ≠ 0) ∨
      ∃ s' log, iteration o st s e = .continued s' log ∧
        s'.g.read_count = s.g.read_count ∧
        s'.g.read_count_value = s.g.read_count_value ∧
        s'.g.error_count = s.g.error_count := by
    unfold iteration
    rcases transfer_part_error o st s e errno hr with
      ⟨ht, hn⟩ | ⟨s1, log1, ht | ht, a, b, c⟩
    · rw [ht]; exact Or.inl ⟨rfl, hn⟩
    · rw [ht]
      simp only
      rcases periodic_checks_result o st s1 e log1 with ⟨hp, hd⟩ | ⟨s2, log2, hp, hg⟩
      · have hst := periodic_checks_fault o st s1 e log1 _ hp
        rw [hp]; exact Or.inr (Or.inl ⟨rfl, hd, hst⟩)
      · rw [hp]
        exact Or.inr (Or.inr ⟨s2, log2, rfl, by rw [hg, a], by rw [hg, b], by rw [hg, c]⟩)
    · rw [ht]; exact Or.inr (Or.inr ⟨s1, log1, rfl, a, b, c⟩)
  refine ⟨by rw [hr]; rfl, ?_, ?_, ?_, ?_⟩
  · intro status hst
    rcases key with ⟨h, _⟩ | ⟨h, _⟩ | ⟨s', log, h, _⟩ <;> rw [h] at hst <;> cases hst
  · intro s' log hc
    rcases key with ⟨h, _⟩ | ⟨h, _⟩ | ⟨s'', log'', h, a, b, c⟩
    · rw [h] at hc; cases hc
    · rw [h] at hc; cases hc
    · rw [h] at hc
      cases hc
      exact ⟨a, c, b⟩
  · intro hw hd
    rcases key with ⟨_, h⟩ | ⟨_, h, _⟩ | ⟨s', log, h, _⟩
    · exact absurd h hw
    · exact absurd h hd
    · exact ⟨s', log, h⟩
  · intro hw hd
    rcases key with ⟨_, h⟩ | ⟨_, h1, h2⟩ | ⟨s', log, h, a, b, c⟩
    · exact absurd h (process_write_data_returns o s.g e.writes hw)
    · rcases hd with hd | hd
      · exact absurd hd h2
      · exact absurd h1 hd
    · refine ⟨s', log, h, a, c, b, ?_⟩
      intro hc
      rw [run_loop]
      simp only [hc, if_true, h]

/-- The amended C9 at an iteration with no option given in which the channel
is readable and writable, `read` fails with `EIO`, the first `write` fails
with `EIO` and the second is accepted: control is back at the loop
condition. -/
theorem read_failure_continues_witness :
    ∃ s' log,
      iteration default_options ⟨0, 0⟩ (initial_state default_options 0 0 ⟨0, 0⟩)
          { idle_input ⟨1, 0⟩ with
            retval := 1, revents_pollin := true, revents_pollout := true,
            read := ReadResult.error EIO
            writes := [WriteResult.error EIO, WriteResult.accepted 1024] } =
        .continued s' log ∧
      s'.g.read_count = 0 ∧ s'.g.error_count = 0 ∧ s'.g.read_count_value = 0 ∧
      (loop_condition (initial_state default_options 0 0 ⟨0, 0⟩) = true →
        run_loop default_options ⟨0, 0⟩
            ({ idle_input ⟨1, 0⟩ with
                retval := 1, revents_pollin := true, revents_pollout := true,
                read := ReadResult.error EIO
                writes := [WriteResult.error EIO, WriteResult.accepted 1024] } ::
              [idle_input ⟨2, 0⟩])
            (initial_state default_options 0 0 ⟨0, 0⟩) =
          run_loop default_options ⟨0, 0⟩ [idle_input ⟨2, 0⟩] s') :=
  (read_failure_continues default_options ⟨0, 0⟩ (initial_state default_options 0 0 ⟨0, 0⟩)
    { idle_input ⟨1, 0⟩ with
      retval := 1, revents_pollin := true, revents_pollout := true,
      read := ReadResult.error EIO
      writes := [WriteResult.error EIO, WriteResult.accepted 1024] }
    EIO [idle_input ⟨2, 0⟩] rfl).2.2.2.2 (Or.inl ⟨1024, by decide⟩) (Or.inl rfl)

/-! ## Theorems: timestamps -/

/-- C10 fails on the code.  Under `-K` (write-follows-read), three seconds
into a run that has read and written nothing, an iteration in which the
channel is writable computes the write size `0` and issues no `write`, yet
stores the clock in the last-write timestamp; the stall check of the same
iteration flags the rx-stall but not the tx-stall.  With no option given, an
iteration in which `read` reports would-block stores the clock in the
last-read timestamp. -/
theorem timestamps_updated_without_transfer :
    iteration { default_options with cl_write_after_read := 1 } ⟨0, 0⟩
        (initial_state { default_options with cl_write_after_read := 1 } 0 0 ⟨0, 0⟩)
        { idle_input ⟨3, 0⟩ with retval := 1, revents_pollout := true } =
      .continued
        { initial_state { default_options with cl_write_after_read := 1 } 0 0 ⟨0, 0⟩ with
          last_write := ⟨3, 0⟩, last_timeout := ⟨3, 0⟩ }
        { IterLog.empty with
          write_returned := some 0, calls := [], stall := some (true, false) } ∧
    iteration default_options ⟨0, 0⟩ (initial_state default_options 0 0 ⟨0, 0⟩)
        { idle_input ⟨3, 0⟩ with
          retval := 1, revents_pollin := true, read := ReadResult.error EAGAIN } =
      .continued
        { initial_state default_options 0 0 ⟨0, 0⟩ with
          last_read := ⟨3, 0⟩, last_timeout := ⟨3, 0⟩ }
        { IterLog.empty with
          read_returned := some (-1), stall := some (false, true) } := by
  constructor <;> decide

/-! ## Theorems: the verifier byte by byte -/

/-- With stop-on-error off, the verification loop adds the mismatches of the
chunk, counted byte by byte, and leaves the expected value after the chunk. -/
theorem verify_loop_count (o : Options) (st sc : Timespec)
    (hs : o.cl_stop_on_error = 0) (l : List Nat) (i : Nat) (g : Globals) :
    verify_loop o st sc i l g =
      .ok
        { g with
          error_count := g.error_count +
            ((count_mismatches o.cl_ascii_range (g.read_count == 0 && i == 0)
              g.read_count_value l : Nat) : Int)
          read_count_value := expected_after o.cl_ascii_range g.read_count_value l } := by
  induction l generalizing i g with
  | nil => simp [verify_loop, count_mismatches, expected_after]
  | cons b rest ih =>
    rw [verify_loop_step o st sc hs, ih]
    simp only [count_mismatches, expected_after, Nat.add_eq_zero, one_ne_zero, and_false,
      beq_iff_eq, Bool.and_false]
    congr 2
    by_cases h : (g.read_count = 0 ∧ i = 0) ∨ b = g.read_count_value
    · have h' : ((g.read_count == 0 && i == 0) || b == g.read_count_value) = true := by
        simpa using h
      simp only [if_pos h, h', if_true]
      simp
    · have h' : ((g.read_count == 0 && i == 0) || b == g.read_count_value) = false := by
        rw [Bool.eq_false_iff]
        simpa using h
      simp only [if_neg h, h', Bool.false_eq_true, if_false]
      simp
      ring

/-- The mismatches of a stream in two parts: those of the first part, then
those of the second part from the expected value after the first. -/
theorem count_mismatches_append (a : Int) (l1 l2 : List Nat) (f : Bool) (r : Nat) :
    count_mismatches a f r (l1 ++ l2) =
      count_mismatches a f r l1 +
        count_mismatches a (f && l1.isEmpty) (expected_after a r l1) l2 := by
  induction l1 generalizing f r with
  | nil => simp [count_mismatches, expected_after]
  | cons b t ih =>
    rw [List.cons_append]
    simp only [count_mismatches, expected_after, ih, List.isEmpty_cons,
      Bool.and_false, Bool.false_and]
    omega

/-- The expected value after a stream in two parts. -/
theorem expected_after_append (a : Int) (l1 l2 : List Nat) (r : Nat) :
    expected_after a r (l1 ++ l2) = expected_after a (expected_after a r l1) l2 := by
  induction l1 generalizing r with
  | nil => rfl
  | cons b t ih =>
    rw [List.cons_append]
    simp only [expected_after, ih]

/-- A stream that continues the sequence from `v` has no mismatch when it
starts the reception or when `v` is the expected value. -/
theorem count_mismatches_iterate (a : Int) (k : Nat) (f : Bool) (r v : Nat)
    (h : f = true ∨ r = v) :
    count_mismatches a f r (List.iterate (next_count_value a) v k) = 0 := by
  induction k generalizing f r v with
  | zero => rfl
  | succ k ih =>
    have h' : (f || v == r) = true := by
      rcases h with h | h
      · simp [h]
      · simp [h]
    simp only [List.iterate, count_mismatches, h', if_true, zero_add]
    exact ih false _ _ (Or.inr rfl)

/-- The expected value after a non-empty stream that is a sequence from `v`. -/
theorem expected_after_iterate (a : Int) (k : Nat) (r v : Nat) :
    expected_after a r (List.iterate (next_count_value a) v (k + 1)) =
      (next_count_value a)^[k + 1] v := by
  induction k generalizing r v with
  | zero => rfl
  | succ k ih =>
    rw [List.iterate, expected_after, ih, Function.iterate_succ_apply (n := k + 1)]

/-- With stop-on-error off, a `read` that delivers the chunk `rb` adds the
mismatches of the chunk and the length of the chunk. -/
theorem process_read_data_count (o : Options) (st sc : Timespec)
    (hs : o.cl_stop_on_error = 0) (rb : List Nat) (g : Globals) :
    process_read_data o st sc g (.data rb) =
      .returned
        { g with
          error_count := g.error_count +
            ((count_mismatches o.cl_ascii_range (g.read_count == 0) g.read_count_value rb :
              Nat) : Int)
          read_count_value := expected_after o.cl_ascii_range g.read_count_value rb
          read_count := g.read_count + (rb.length : Int) } (rb.length : Int) := by
  cases rb with
  | nil => simp [process_read_data, count_mismatches, expected_after]
  | cons b t =>
    have hpos : (0 : Int) < ((b :: t).length : Int) := by
      rw [List.length_cons]; omega
    simp only [process_read_data, gt_iff_lt, hpos, if_true,
      verify_loop_count o st sc hs (b :: t) 0 g, beq_self_eq_true, Bool.and_true]

/-- With stop-on-error off, successive reads add the mismatches of the whole
stream, counted byte by byte: the count does not depend on the chunking. -/
theorem read_chunks_count (o : Options) (st sc : Timespec)
    (hs : o.cl_stop_on_error = 0) (chunks : List (List Nat)) (g : Globals)
    (h0 : 0 ≤ g.read_count) :
    read_chunks o st sc chunks g =
      .ok
        { g with
          error_count := g.error_count +
            ((count_mismatches o.cl_ascii_range (g.read_count == 0) g.read_count_value
              chunks.flatten : Nat) : Int)
          read_count_value := expected_after o.cl_ascii_range g.read_count_value chunks.flatten
          read_count := g.read_count + (chunks.flatten.length : Int) } := by
  induction chunks generalizing g with
  | nil => simp [read_chunks, count_mismatches, expected_after]
  | cons rb rest ih =>
    rw [read_chunks, process_read_data_count o st sc hs]
    simp only
    rw [ih _ (by simp only; omega)]
    simp only [List.flatten_cons, count_mismatches_append, expected_after_append,
      List.length_append]
    have hflag : (g.read_count + (rb.length : Int) == 0) =
        (g.read_count == 0 && rb.isEmpty) := by
      cases rb with
      | nil => simp
      | cons b t =>
        simp only [List.length_cons, List.isEmpty_cons, Bool.and_false, beq_eq_false_iff_ne,
          ne_eq]
        push_cast
        omega
    rw [hflag]
    congr 2
    · push_cast; ring
    · push_cast; ring

/-! ## Theorems: duration caps -/

/-- With a read timeout configured and stop-on-error off, an iteration in
which the channel is readable takes the `continue` after the read: the bytes
are verified and counted, the last-read timestamp is stored when bytes came,
and nothing else changes. -/
theorem iteration_busy (o : Options) (st : Timespec) (s : LoopState) (t : Timespec)
    (rb : List Nat) (hx : o.cl_rx_timeout ≠ 0) (hs : o.cl_stop_on_error = 0) :
    iteration o st s (busy_input t rb) =
      .continued
        { s with
          g :=
            { s.g with
              error_count := s.g.error_count +
                ((count_mismatches o.cl_ascii_range (s.g.read_count == 0)
                  s.g.read_count_value rb : Nat) : Int)
              read_count_value := expected_after o.cl_ascii_range s.g.read_count_value rb
              read_count := s.g.read_count + (rb.length : Int) }
          last_read := if (rb.length : Int) > 0 then t else s.last_read }
        { IterLog.empty with read_returned := some (rb.length : Int) } := by
  have hx' : (o.cl_rx_timeout != 0) = true := by simpa using hx
  simp only [iteration, transfer_part, busy_input, idle_input, read_part, hx', if_true,
    process_read_data_count o st t hs rb s.g]
  rfl

/-- With a read timeout configured and stop-on-error off, a run of iterations
in each of which the channel is readable never reaches the periodic checks:
the loop is still running and only the module variables and the last-read
timestamp can differ from the state at the start. -/
theorem run_loop_busy (o : Options) (st : Timespec) (hx : o.cl_rx_timeout ≠ 0)
    (hs : o.cl_stop_on_error = 0) (l : List (Timespec × List Nat)) (s : LoopState)
    (hc : loop_condition s = true) :
    ∃ g' lr,
      run_loop o st (l.map fun a => busy_input a.1 a.2) s =
        .running { s with g := g', last_read := lr } := by
  induction l generalizing s with
  | nil => exact ⟨s.g, s.last_read, by simp [run_loop, hc]⟩
  | cons a rest ih =>
    obtain ⟨g1, lr1, log1, h1⟩ : ∃ g1 lr1 log1, iteration o st s (busy_input a.1 a.2) =
        .continued { s with g := g1, last_read := lr1 } log1 :=
      ⟨_, _, _, iteration_busy o st s a.1 a.2 hx hs⟩
    obtain ⟨g2, lr2, h2⟩ := ih { s with g := g1, last_read := lr1 } hc
    refine ⟨g2, lr2, ?_⟩
    rw [List.map_cons, run_loop]
    simp only [hc, if_true, h1]
    exact h2

/-- The part of the state that the transfer part of an iteration leaves
alone: the two direction flags and the two pending caps. -/
theorem read_part_frame (o : Options) (st : Timespec) (s s1 : LoopState)
    (e : IterInput) (log : IterLog)
    (h : read_part o st s e = .fallthrough s1 log ∨ read_part o st s e = .continue_ s1 log) :
    s1.runtime_no_tx = s.runtime_no_tx ∧ s1.runtime_no_rx = s.runtime_no_rx ∧
      s1.cl_tx_time = s.cl_tx_time ∧ s1.cl_rx_time = s.cl_rx_time := by
  unfold read_part at h
  cases hp : process_read_data o st e.stats_clock s.g e.read with
  | stopped t =>
    simp only [hp] at h
    split_ifs at h <;> rcases h with h | h <;> cases h <;> exact ⟨rfl, rfl, rfl, rfl⟩
  | returned g c =>
    simp only [hp] at h
    split_ifs at h <;> rcases h with h | h <;> cases h <;> exact ⟨rfl, rfl, rfl, rfl⟩

/-- The write part of an iteration leaves the direction flags and the pending
caps alone, and never takes a `continue`. -/
theorem write_part_frame (o : Options) (s s1 : LoopState) (e : IterInput)
    (log log1 : IterLog) :
    write_part o s e log ≠ .continue_ s1 log1 ∧
    (write_part o s e log = .fallthrough s1 log1 →
      s1.runtime_no_tx = s.runtime_no_tx ∧ s1.runtime_no_rx = s.runtime_no_rx ∧
        s1.cl_tx_time = s.cl_tx_time ∧ s1.cl_rx_time = s.cl_rx_time) := by
  unfold write_part write_call
  cases hp : process_write_data o s.g e.writes with
  | none =>
    simp only
    constructor
    · split_ifs <;> intro h <;> cases h
    · split_ifs <;> intro h <;> cases h <;> exact ⟨rfl, rfl, rfl, rfl⟩
  | some r =>
    obtain ⟨g, c, calls⟩ := r
    simp only
    constructor
    · split_ifs <;> intro h <;> cases h
    · split_ifs <;> intro h <;> cases h <;> exact ⟨rfl, rfl, rfl, rfl⟩

/-- The transfer part of an iteration leaves the direction flags and the
pending caps alone; it takes a `continue` only when a read timeout is
configured. -/
theorem transfer_part_frame (o : Options) (st : Timespec) (s s1 : LoopState)
    (e : IterInput) (log : IterLog) :
    (transfer_part o st s e = .fallthrough s1 log ∨
        transfer_part o st s e = .continue_ s1 log →
      s1.runtime_no_tx = s.runtime_no_tx ∧ s1.runtime_no_rx = s.runtime_no_rx ∧
        s1.cl_tx_time = s.cl_tx_time ∧ s1.cl_rx_time = s.cl_rx_time) ∧
    (o.cl_rx_timeout = 0 → transfer_part o st s e ≠ .continue_ s1 log) := by
  unfold transfer_part
  split
  · exact ⟨fun h => (by rcases h with h | h <;> cases h; exact ⟨rfl, rfl, rfl, rfl⟩),
      fun _ h => (by cases h)⟩
  · split
    · cases hr : read_part o st s e with
      | fallthrough s2 log2 =>
        simp only
        have hf := read_part_frame o st s s2 e log2 (Or.inl hr)
        have hw := write_part_frame o s2 s1 e log2 log
        refine ⟨fun h => ?_, fun _ => hw.1⟩
        rcases h with h | h
        · have := hw.2 h
          exact ⟨this.1.trans hf.1, this.2.1.trans hf.2.1, this.2.2.1.trans hf.2.2.1,
            this.2.2.2.trans hf.2.2.2⟩
        · exact absurd h hw.1
      | continue_ s2 log2 =>
        simp only
        refine ⟨fun h => ?_, fun h0 h => ?_⟩
        · rcases h with h | h
          · cases h
          · cases h
            exact read_part_frame o st s s1 e log (Or.inr hr)
        · unfold read_part at hr
          have h0' : (o.cl_rx_timeout != 0) = false := by simp [h0]
          simp only [h0', Bool.false_eq_true, if_false, Bool.false_and] at hr
          split_ifs at hr <;> (try split at hr) <;> cases hr
      | stopped t =>
        simp only
        exact ⟨fun h => (by rcases h with h | h <;> cases h), fun _ h => (by cases h)⟩
      | writing =>
        simp only
        exact ⟨fun h => (by rcases h with h | h <;> cases h), fun _ h => (by cases h)⟩
    · exact ⟨fun h => (by rcases h with h | h <;> cases h; exact ⟨rfl, rfl, rfl, rfl⟩),
        fun _ h => (by cases h)⟩

/-- The periodic checks, when they are reached: a direction that is disabled
stays disabled, and a pending cap that the elapsed whole seconds have reached
disables its direction. -/
theorem periodic_checks_caps (o : Options) (st : Timespec) (s s' : LoopState)
    (e : IterInput) (log log' : IterLog)
    (h : periodic_checks o st s e log = .fallthrough s' log') :
    (s.runtime_no_tx ≠ 0 → s'.runtime_no_tx ≠ 0) ∧
    (s.runtime_no_rx ≠ 0 → s'.runtime_no_rx ≠ 0) ∧
    (s.cl_tx_time ≠ 0 → e.current.tv_sec - st.tv_sec ≥ s.cl_tx_time →
      s'.runtime_no_tx = 1) ∧
    (s.cl_rx_time ≠ 0 → e.current.tv_sec - st.tv_sec ≥ s.cl_rx_time →
      s'.runtime_no_rx = 1) := by
  have hs1 : (stall_check s e.current log).1.runtime_no_tx = s.runtime_no_tx ∧
      (stall_check s e.current log).1.runtime_no_rx = s.runtime_no_rx ∧
      (stall_check s e.current log).1.cl_tx_time = s.cl_tx_time ∧
      (stall_check s e.current log).1.cl_rx_time = s.cl_rx_time := by
    unfold stall_check
    simp only
    split_ifs <;> exact ⟨rfl, rfl, rfl, rfl⟩
  unfold periodic_checks at h
  simp only at h
  split at h
  · cases h
  · rename_i r2 hst
    have hs2 : r2.1.runtime_no_tx = s.runtime_no_tx ∧ r2.1.runtime_no_rx = s.runtime_no_rx ∧
        r2.1.cl_tx_time = s.cl_tx_time ∧ r2.1.cl_rx_time = s.cl_rx_time := by
      unfold stats_check at hst
      split at hst
      · split at hst
        · split at hst
          · cases hst
          · cases hst; exact hs1
        · cases hst; exact hs1
      · cases hst; exact hs1
    simp only [Flow.fallthrough.injEq] at h
    obtain ⟨h, -⟩ := h
    subst h
    obtain ⟨a, b, c, d⟩ := hs2
    unfold rx_time_check tx_time_check
    refine ⟨?_, ?_, ?_, ?_⟩
    · intro hne
      split_ifs <;> simp only [a] <;> first | exact hne | exact one_ne_zero
    · intro hne
      split_ifs <;> simp only [b] <;> first | exact hne | exact one_ne_zero
    · intro h1 h2
      have h1' : (r2.1.cl_tx_time != 0) = true := by simpa [c] using h1
      have h2' : e.current.tv_sec - st.tv_sec ≥ r2.1.cl_tx_time := by rw [c]; exact h2
      simp only [h1', if_true, h2']
      split_ifs <;> rfl
    · intro h1 h2
      split_ifs <;>
        first
        | rfl
        | (exfalso; simp only [bne_iff_ne, ne_eq, d, c, ge_iff_le] at *; omega)

/-- What holds of the duration caps in every iteration that comes back to the
loop condition: a direction that is disabled stays disabled; and when no read
timeout is configured, a pending cap that the elapsed whole seconds have
reached disables its direction. -/
theorem iteration_caps (o : Options) (st : Timespec) (s s' : LoopState)
    (e : IterInput) (log : IterLog) (h : iteration o st s e = .continued s' log) :
    (s.runtime_no_tx ≠ 0 → s'.runtime_no_tx ≠ 0) ∧
    (s.runtime_no_rx ≠ 0 → s'.runtime_no_rx ≠ 0) ∧
    (o.cl_rx_timeout = 0 → s.cl_tx_time ≠ 0 →
      e.current.tv_sec - st.tv_sec ≥ s.cl_tx_time → s'.runtime_no_tx = 1) ∧
    (o.cl_rx_timeout = 0 → s.cl_rx_time ≠ 0 →
      e.current.tv_sec - st.tv_sec ≥ s.cl_rx_time → s'.runtime_no_rx = 1) := by
  unfold iteration at h
  cases ht : transfer_part o st s e with
  | stopped t => rw [ht] at h; cases h
  | writing => rw [ht] at h; cases h
  | continue_ s1 log1 =>
    rw [ht] at h
    cases h
    have hf := (transfer_part_frame o st s s' e log).1 (Or.inr ht)
    have hc := (transfer_part_frame o st s s' e log).2
    exact ⟨fun a => by rw [hf.1]; exact a, fun a => by rw [hf.2.1]; exact a,
      fun h0 => absurd ht (hc h0), fun h0 => absurd ht (hc h0)⟩
  | fallthrough s1 log1 =>
    rw [ht] at h
    simp only at h
    have hf := (transfer_part_frame o st s s1 e log1).1 (Or.inl ht)
    rcases periodic_checks_result o st s1 e log1 with ⟨hp, _⟩ | ⟨s2, log2, hp, _⟩
    · rw [hp] at h; cases h
    · rw [hp] at h
      cases h
      have hc := periodic_checks_caps o st s1 s' e log1 log hp
      rw [hf.1, hf.2.1, hf.2.2.1, hf.2.2.2] at hc
      exact ⟨hc.1, hc.2.1, fun _ => hc.2.2.1, fun _ => hc.2.2.2⟩

/-- C11 fails on the code.  Under `-x 100 -a 10 -o 5 -i 5` (read timeout, and
both duration caps at 5 s), an iteration at the sixth second in which the
channel is readable takes the `continue` after the read and leaves both
directions enabled and both caps pending; so does every run of iterations in
each of which the channel is readable, whatever the clock says.  Without the
read timeout the same iteration disables both directions and ends the loop. -/
theorem duration_caps_skipped (l : List (Timespec × List Nat)) :
    iteration { default_options with cl_rx_timeout := 100, cl_tx_delay := 10 } ⟨0, 0⟩
        (initial_state { default_options with cl_rx_timeout := 100, cl_tx_delay := 10 }
          5 5 ⟨0, 0⟩)
        (busy_input ⟨6, 0⟩ [0]) =
      .continued
        { initial_state { default_options with cl_rx_timeout := 100, cl_tx_delay := 10 }
            5 5 ⟨0, 0⟩ with
          g := { write_count_value := 0, read_count_value := 1, write_count := 0,
                 read_count := 1, error_count := 0 }
          last_read := ⟨6, 0⟩ }
        { IterLog.empty with read_returned := some 1 } ∧
    (∃ s,
      run_loop { default_options with cl_rx_timeout := 100, cl_tx_delay := 10 } ⟨0, 0⟩
          (l.map fun a => busy_input a.1 a.2)
          (initial_state { default_options with cl_rx_timeout := 100, cl_tx_delay := 10 }
            5 5 ⟨0, 0⟩) = .running s ∧
        s.runtime_no_tx = 0 ∧ s.runtime_no_rx = 0 ∧ s.cl_tx_time = 5 ∧ s.cl_rx_time = 5) ∧
    run_loop default_options ⟨0, 0⟩ [busy_input ⟨6, 0⟩ [0]]
        (initial_state default_options 5 5 ⟨0, 0⟩) =
      .left
        { initial_state default_options 5 5 ⟨0, 0⟩ with
          g := { write_count_value := 0, read_count_value := 1, write_count := 0,
                 read_count := 1, error_count := 0 }
          cl_tx_time := 0, cl_rx_time := 0, runtime_no_tx := 1, runtime_no_rx := 1
          events_pollin := false, events_pollout := false
          last_timeout := ⟨6, 0⟩, last_read := ⟨6, 0⟩ } := by
  refine ⟨by decide, ?_, by decide⟩
  obtain ⟨g', lr, h⟩ := run_loop_busy
    { default_options with cl_rx_timeout := 100, cl_tx_delay := 10 } ⟨0, 0⟩
    (by decide) rfl l
    (initial_state { default_options with cl_rx_timeout := 100, cl_tx_delay := 10 }
      5 5 ⟨0, 0⟩) rfl
  exact ⟨_, h, rfl, rfl, rfl, rfl⟩

/-! ## Theorems: statistics -/

/-- When both directions are disabled the loop is left at once. -/
theorem run_loop_disabled (o : Options) (st : Timespec) (es : List IterInput)
    (s : LoopState) (h : loop_condition s = false) : run_loop o st es s = .left s := by
  cases es <;> simp [run_loop, h]

/-- C12 fails on the code: `dump_serial_port_stats` divides by
`ms_since_beginning` without a test.  When its clock equals the start time
the division is by zero; so the run under `-r -t`, whose loop body never
runs, stops on the fault in the final statistics when they are printed within
the millisecond of the start, and so does a stop-on-error abort within the
first millisecond, in place of `exit(-EIO)`. -/
theorem stats_divide_by_zero (st : Timespec) (g : Globals) (es : List IterInput) :
    dump_serial_port_stats st st g = none ∧
    main_run { default_options with cl_no_rx := 1, cl_no_tx := 1 } 0 0 st es st =
      .stopped Stop.fault ∧
    main_run { default_options with cl_no_rx := 1, cl_no_tx := 1 } 0 0 ⟨10, 0⟩ []
        ⟨10, 999999⟩ = .stopped Stop.fault ∧
    process_read_data { default_options with cl_stop_on_error := 1 } ⟨10, 0⟩ ⟨10, 2000⟩
        { write_count_value := 0, read_count_value := 0, write_count := 0,
          read_count := 0, error_count := 0 } (.data [1, 9]) = .stopped Stop.fault := by
  have hd : diff_ms st st = 0 := by
    simp [diff_ms, to_int]
  have h1 : ∀ g' : Globals, dump_serial_port_stats st st g' = none := by
    intro g'
    simp [dump_serial_port_stats, hd]
  refine ⟨h1 g, ?_, by decide, by decide⟩
  have hl := run_loop_disabled { default_options with cl_no_rx := 1, cl_no_tx := 1 } st es
    (initial_state { default_options with cl_no_rx := 1, cl_no_tx := 1 } 0 0 st) rfl
  unfold main_run
  rw [hl]
  simp only [main_finish, h1]

/-! ## Theorems: cost of a corrupted byte -/

/-- In the full range, a sequence from `v` of which the byte at index
`p >= 1` is replaced by a different byte `x`, followed by `k` bytes of the
original sequence, has one mismatch at `x` and, when `k >= 1`, one more at the
byte after it. -/
theorem count_mismatches_corrupted (f : Bool) (r v x p k : Nat)
    (h : f = true ∨ r = v) (hp : 1 ≤ p) (hx : x < 256)
    (hne : x ≠ (next_count_value 0)^[p] v) :
    count_mismatches 0 f r
        (List.iterate (next_count_value 0) v p ++
          x :: List.iterate (next_count_value 0) ((next_count_value 0)^[p + 1] v) k) =
      1 + (if k = 0 then 0 else 1) ∧
    (1 ≤ k →
      expected_after 0 r
          (List.iterate (next_count_value 0) v p ++
            x :: List.iterate (next_count_value 0) ((next_count_value 0)^[p + 1] v) k) =
        (next_count_value 0)^[p + 1 + k] v) := by
  obtain ⟨q, rfl⟩ : ∃ q, p = q + 1 := ⟨p - 1, by omega⟩
  have hlt : (next_count_value 0)^[q + 1] v < 256 := by
    rw [Function.iterate_succ_apply', next_count_value_full]
    omega
  have hx1 : (x == (next_count_value 0)^[q + 1] v) = false := by
    simpa using hne
  constructor
  · rw [count_mismatches_append, count_mismatches_iterate 0 (q + 1) f r v h,
      expected_after_iterate, zero_add]
    have hemp : (List.iterate (next_count_value 0) v (q + 1)).isEmpty = false := rfl
    simp only [hemp, Bool.and_false, count_mismatches, Bool.false_or, hx1,
      Bool.false_eq_true, if_false]
    cases k with
    | zero => simp [List.iterate, count_mismatches]
    | succ j =>
      have hne2 : ((next_count_value 0)^[q + 1 + 1] v == next_count_value 0 x) = false := by
        rw [beq_eq_false_iff_ne, Function.iterate_succ_apply' (n := q + 1),
          next_count_value_full, next_count_value_full]
        omega
      simp only [List.iterate, count_mismatches, Bool.false_or, hne2, Bool.false_eq_true,
        if_false, Nat.add_eq_zero, one_ne_zero, and_false]
      rw [count_mismatches_iterate 0 j false _ _ (Or.inr rfl)]
  · intro hk
    obtain ⟨j, rfl⟩ : ∃ j, k = j + 1 := ⟨k - 1, by omega⟩
    rw [expected_after_append, expected_after, expected_after_iterate,
      ← Function.iterate_add_apply]
    congr 1
    omega

/-- A sequence of `n` values from `v` with the value at index `p < n` replaced
by `x`: the first `p` values, then `x`, then the original values from index
`p + 1` on. -/
theorem iterate_set (f : Nat → Nat) (v x n p : Nat) (hp : p < n) :
    (List.iterate f v n).set p x =
      List.iterate f v p ++ x :: List.iterate f (f^[p + 1] v) (n - p - 1) := by
  have hn : n = p + ((n - p - 1) + 1) := by omega
  conv_lhs => rw [hn, List.iterate_add]
  rw [List.set_append_right _ _ (by simp), List.length_iterate, Nat.sub_self]
  simp only [List.iterate, List.set_cons_zero, Function.iterate_succ_apply']

/-- The first `L` bytes of the corrupted sequence, for `L` beyond the index
`p` of the replaced byte. -/
theorem iterate_set_take (f : Nat → Nat) (v x n p j : Nat) (hn : p + 1 + j ≤ n) :
    ((List.iterate f v n).set p x).take (p + 1 + j) =
      List.iterate f v p ++ x :: List.iterate f (f^[p + 1] v) j := by
  rw [iterate_set f v x n p (by omega), List.take_append_eq_append_take,
    List.take_of_length_le (by rw [List.length_iterate]; omega), List.length_iterate]
  have e : p + 1 + j - p = j + 1 := by omega
  rw [e, List.take_succ_cons, List.take_iterate, min_eq_left (by omega)]

/-- The first `L <= p` bytes of the corrupted sequence are those of the
original sequence. -/
theorem iterate_set_take_le (f : Nat → Nat) (v x n p L : Nat) (hp : p < n) (hL : L ≤ p) :
    ((List.iterate f v n).set p x).take L = List.iterate f v L := by
  rw [iterate_set f v x n p hp, List.take_append_of_le_length (by simpa using hL),
    List.take_iterate, min_eq_left hL]

/-- C13: in the full range with stop-on-error off, let the sequence of
`n >= 3` bytes from `v` reach a reader that has received nothing before, or
that has and expects `v`, with the byte at an index `p`, neither the first nor
the last, replaced by a different byte `x`.  Under any chunking of the reads
`mismatchCount` grows by exactly 2 and the expected value ends where the
original sequence leads; after the first `L` bytes of the stream it has grown
by `0` for `L <= p`, by `1` for `L = p + 1` and by `2` for every longer
prefix: one mismatch at the replaced byte, one at the byte after it, none
afterwards. -/
theorem corrupted_byte_costs_two (o : Options) (st sc : Timespec) (g : Globals)
    (v x n p : Nat) (hfull : o.cl_ascii_range = 0) (hs : o.cl_stop_on_error = 0)
    (hg : g.read_count = 0 ∨ (0 < g.read_count ∧ g.read_count_value = v))
    (hp : 1 ≤ p) (hn : p + 2 ≤ n) (hx : x < 256)
    (hne : x ≠ (next_count_value 0)^[p] v) :
    (∀ chunks : List (List Nat),
      chunks.flatten = (List.iterate (next_count_value 0) v n).set p x →
      ∃ g', read_chunks o st sc chunks g = .ok g' ∧
        g'.error_count = g.error_count + 2 ∧
        g'.read_count = g.read_count + (n : Int) ∧
        g'.read_count_value = (next_count_value 0)^[n] v) ∧
    (∀ (L : Nat) (chunks : List (List Nat)), L ≤ n →
      chunks.flatten = ((List.iterate (next_count_value 0) v n).set p x).take L →
      ∃ g', read_chunks o st sc chunks g = .ok g' ∧
        g'.error_count =
          g.error_count + (if L ≤ p then 0 else if L = p + 1 then 1 else 2)) := by
  have h0 : 0 ≤ g.read_count := by
    rcases hg with h | h
    · rw [h]
    · exact le_of_lt h.1
  have hflag : (g.read_count == 0) = true ∨ g.read_count_value = v := by
    rcases hg with h | h
    · exact Or.inl (by simp [h])
    · exact Or.inr h.2
  constructor
  · intro chunks hch
    refine ⟨_, read_chunks_count o st sc hs chunks g h0, ?_, ?_, ?_⟩
    · simp only [hfull, hch]
      have e : n = p + 1 + (n - p - 1) := by omega
      have := (count_mismatches_corrupted (g.read_count == 0) g.read_count_value v x p
        (n - p - 1) hflag hp hx hne).1
      rw [iterate_set _ _ _ _ _ (by omega), this, if_neg (by omega)]
      rfl
    · simp only [hch, List.length_set, List.length_iterate]
    · simp only [hfull, hch]
      have := (count_mismatches_corrupted (g.read_count == 0) g.read_count_value v x p
        (n - p - 1) hflag hp hx hne).2 (by omega)
      rw [iterate_set _ _ _ _ _ (by omega), this]
      congr 1
      omega
  · intro L chunks hL hch
    refine ⟨_, read_chunks_count o st sc hs chunks g h0, ?_⟩
    simp only [hfull, hch]
    by_cases h1 : L ≤ p
    · rw [iterate_set_take_le _ _ _ _ _ _ (by omega) h1,
        count_mismatches_iterate 0 L _ _ _ hflag, if_pos h1]
      rfl
    · obtain ⟨j, rfl⟩ : ∃ j, L = p + 1 + j := ⟨L - p - 1, by omega⟩
      rw [iterate_set_take _ _ _ _ _ _ hL,
        (count_mismatches_corrupted (g.read_count == 0) g.read_count_value v x p j hflag hp
          hx hne).1, if_neg h1]
      by_cases hj : j = 0
      · subst hj; simp
      · rw [if_neg hj, if_neg (by omega)]
        rfl

/-- C13 for the sequence `254, 255, 0, 1, 2, 3` with the byte `0` replaced by
`77`, read in three chunks by a fresh reader. -/
theorem corrupted_byte_costs_two_witness :
    ∃ g', read_chunks default_options ⟨0, 0⟩ ⟨1, 0⟩ [[254, 255], [77, 1], [2, 3]]
        { write_count_value := 0, read_count_value := 0, write_count := 0,
          read_count := 0, error_count := 0 } = .ok g' ∧
      g'.error_count = 0 + 2 ∧ g'.read_count = 0 + ((6 : Nat) : Int) ∧
      g'.read_count_value = (next_count_value 0)^[6] 254 :=
  (corrupted_byte_costs_two default_options ⟨0, 0⟩ ⟨1, 0⟩
    { write_count_value := 0, read_count_value := 0, write_count := 0,
      read_count := 0, error_count := 0 }
    254 77 6 2 rfl rfl (Or.inl rfl) (by decide) (by decide) (by decide) (by decide)).1
    [[254, 255], [77, 1], [2, 3]] (by decide)

/-! ## Theorems: exit status of a run -/

/-- With both directions disabled by the command line the loop body never
runs: the loop is left in the state in which it was entered, with all
counters at `0`. -/
theorem run_loop_both_disabled (o : Options) (t r : Int) (st : Timespec)
    (es : List IterInput) (h1 : o.cl_no_rx = 1) (h2 : o.cl_no_tx = 1) :
    run_loop o st es (initial_state o t r st) = .left (initial_state o t r st) ∧
      (initial_state o t r st).g.write_count = 0 ∧
      (initial_state o t r st).g.read_count = 0 ∧
      (initial_state o t r st).g.error_count = 0 :=
  ⟨run_loop_disabled o st es _ (by simp [loop_condition, initial_state, h1, h2]),
    rfl, rfl, rfl⟩

/-- C1: for the flags no-rx and no-tx in `{0, 1}` and all counters `W`, `R`,
`E`, `compute_error_count` returns `127` if an enabled direction moved no
byte, otherwise `min(125, E)` if exactly one direction is enabled, otherwise
`min(125, |W - R| + E)` if both are enabled; with both directions disabled it
is reached with `W = R = E = 0` only, where it agrees with the same case
analysis.  So the status that any run of `main` returns is the case analysis
of the specification on the final counters, and the four scenarios of the
specification hold. -/
theorem exit_status_spec (noRx noTx W R E : Int)
    (hrx : noRx = 0 ∨ noRx = 1) (htx : noTx = 0 ∨ noTx = 1)
    (hreach : noRx = 1 → noTx = 1 → W = R) :
    compute_error_count noRx noTx W R E = spec_exit_status noRx noTx W R E ∧
    (((noRx = 0 ∧ R = 0) ∨ (noTx = 0 ∧ W = 0)) →
      compute_error_count noRx noTx W R E = 127) ∧
    (¬ ((noRx = 0 ∧ R = 0) ∨ (noTx = 0 ∧ W = 0)) →
      ((noRx = 0 ∧ noTx = 1) ∨ (noRx = 1 ∧ noTx = 0)) →
      compute_error_count noRx noTx W R E = min 125 E) ∧
    (¬ ((noRx = 0 ∧ R = 0) ∨ (noTx = 0 ∧ W = 0)) → noRx = 0 → noTx = 0 →
      compute_error_count noRx noTx W R E = min 125 (|W - R| + E)) ∧
    compute_error_count 0 1 W 0 E = 127 ∧
    compute_error_count 0 0 1000 998 0 = 2 ∧
    compute_error_count 0 0 1000 1000 130 = 125 ∧
    (0 < W → compute_error_count 1 0 W R 0 = 0) ∧
    (∀ (o : Options) (t r : Int) (st : Timespec) (es : List IterInput)
        (final_clock : Timespec) (status : Int),
      o.cl_no_rx = noRx → o.cl_no_tx = noTx →
      main_run o t r st es final_clock = .returned status →
      ∃ s, run_loop o st es (initial_state o t r st) = .left s ∧
        (noRx = 1 → noTx = 1 →
          s.g.write_count = 0 ∧ s.g.read_count = 0 ∧ s.g.error_count = 0) ∧
        status = spec_exit_status noRx noTx s.g.write_count s.g.read_count
          s.g.error_count) ∧
    (∀ (o : Options) (t r : Int) (st : Timespec) (es : List IterInput)
        (final_clock : Timespec) (s : LoopState),
      o.cl_no_rx = noRx → o.cl_no_tx = noTx →
      run_loop o st es (initial_state o t r st) = .left s →
      diff_ms final_clock st ≠ 0 →
      main_run o t r st es final_clock =
        .returned (spec_exit_status noRx noTx s.g.write_count s.g.read_count
          s.g.error_count)) := by
  have hboth : ∀ (o : Options) (t r : Int) (st : Timespec) (es : List IterInput)
      (s : LoopState), o.cl_no_rx = noRx → o.cl_no_tx = noTx →
      run_loop o st es (initial_state o t r st) = .left s → noRx = 1 → noTx = 1 →
      s.g.write_count = 0 ∧ s.g.read_count = 0 ∧ s.g.error_count = 0 := by
    intro o t r st es s h1 h2 hrun a b
    have hl := run_loop_both_disabled o t r st es (h1.trans a) (h2.trans b)
    rw [hl.1] at hrun
    cases hrun
    exact ⟨hl.2.1, hl.2.2.1, hl.2.2.2⟩
  refine ⟨compute_error_count_agrees _ _ _ _ _ hrx htx hreach, ?_, ?_, ?_, ?_,
    by decide, by decide, ?_, ?_, ?_⟩
  · intro h
    rw [compute_error_count_eq, if_pos h]
  · intro h h1
    rw [compute_error_count_eq, if_neg h, if_pos (by omega)]
  · intro h h1 h2
    rw [compute_error_count_eq, if_neg h, if_neg (by omega)]
  · rw [compute_error_count_eq]; simp
  · intro hW
    rw [compute_error_count_eq]
    have : ¬ ((1 : Int) = 0 ∧ R = 0 ∨ (0 : Int) = 0 ∧ W = 0) := by omega
    rw [if_neg this]; simp
  · intro o t r st es fc status h1 h2 hm
    unfold main_run at hm
    cases hrun : run_loop o st es (initial_state o t r st) with
    | left s =>
      rw [hrun] at hm
      simp only [main_finish] at hm
      cases hd : dump_serial_port_stats st fc s.g with
      | none => rw [hd] at hm; cases hm
      | some line =>
        rw [hd] at hm
        simp only [MainResult.returned.injEq] at hm
        have hb := hboth o t r st es s h1 h2 hrun
        refine ⟨s, rfl, hb, ?_⟩
        rw [← hm, h1, h2]
        exact compute_error_count_agrees _ _ _ _ _ hrx htx
          (fun a b => by rw [(hb a b).1, (hb a b).2.1])
    | running s => rw [hrun] at hm; cases hm
    | stopped t' => rw [hrun] at hm; cases hm
    | writing => rw [hrun] at hm; cases hm
  · intro o t r st es fc s h1 h2 hrun hd
    have hb := hboth o t r st es s h1 h2 hrun
    have hdump : ∃ line, dump_serial_port_stats st fc s.g = some line := by
      have hd' : (diff_ms fc st == 0) = false := by simpa using hd
      simp [dump_serial_port_stats, hd']
    obtain ⟨line, hline⟩ := hdump
    unfold main_run
    rw [hrun]
    simp only [main_finish, hline, h1, h2]
    rw [compute_error_count_agrees _ _ _ _ _ hrx htx
      (fun a b => by rw [(hb a b).1, (hb a b).2.1])]

/-- C1 at both directions enabled with `W = 1000`, `R = 998`, `E = 0`, and at
both directions disabled with all counters at `0`. -/
theorem exit_status_spec_witness :
    compute_error_count 0 0 1000 998 0 = spec_exit_status 0 0 1000 998 0 ∧
      compute_error_count 1 1 0 0 0 = spec_exit_status 1 1 0 0 0 :=
  ⟨(exit_status_spec 0 0 1000 998 0 (Or.inl rfl) (Or.inl rfl)
      (fun h => absurd h (by decide))).1,
    (exit_status_spec 1 1 0 0 0 (Or.inr rfl) (Or.inr rfl) (fun _ _ => rfl)).1⟩

end LinuxSerialTest
